import Mathlib

/-!
Verification development for the BuyMe auction marketplace's Bidding &
Settlement Engine (`routes/auction.py` and `routes/auth.py`).

The engine's ledger state for one auction (its row, its bids, its auto-bid
directives, and the alert stream) is embedded as an explicit `AuctionState`.
Prices are modelled as `Rat`, mirroring the exact `Decimal` arithmetic the
source performs.  SQL queries become list functions whose tie-breaking
follows the scan order of the underlying table (insertion order), and the
unbounded `while True` proxy-bidding loop of `_run_auto_bidding` becomes a
fuelled iteration run with a fuel value (`autoMeasure`) that is proved
sufficient to reach the loop's fixed point.
-/

unseal Rat.add Rat.sub Rat.mul Rat.inv

namespace BuyMe

/-- Bid status as stored in the `bid.bid_status` column. -/
inductive BidStatus
  | PLACED
  | LEADING
  | OUTBID
  | WON
  | LOST
deriving DecidableEq, Repr

/-- A row of the `bid` table for one auction.  `auction_bid_time` is the
placement timestamp used by the `ORDER BY bid_price DESC, auction_bid_time
ASC` tie-break. -/
structure Bid where
  bid_id : Nat
  user_id : Nat
  bid_price : Rat
  auction_bid_time : Nat
  bid_status : BidStatus
deriving DecidableEq, Repr

/-- A row of the `auto_bid` table: a proxy-bidding directive. -/
structure AutoBid where
  id : Nat
  user_id : Nat
  max_bid : Rat
  increment : Rat
  active : Bool
deriving DecidableEq, Repr

/-- The payload of an alert message.  The source stores formatted strings;
we keep the recipient-relevant parameters (which auction, and for a win
alert the winning price quoted in the message). -/
inductive AlertKind
  | outbid (auction_title : String)
  | won (auction_title : String) (price : Rat)
deriving DecidableEq, Repr

/-- A row of the `alert` table. -/
structure Alert where
  user_id : Nat
  kind : AlertKind
deriving DecidableEq, Repr

/-- One auction's slice of the ledger: the auction row fields the engine
reads, its bids, its auto-bid directives and the alert stream.  `next_id`
models the autoincrement rowid counter used for freshly inserted bids and
directives (and doubles as the insertion timestamp, preserving insertion
order). -/
structure AuctionState where
  starting_price : Rat
  auction_end : Nat
  seller_id : Nat
  auction_title : String
  bids : List Bid
  auto_bids : List AutoBid
  alerts : List Alert
  current_highest_bid : Option Rat
  next_id : Nat
deriving DecidableEq, Repr

/-- Whether bid `a` sorts strictly before bid `b` under
`ORDER BY bid_price DESC, auction_bid_time ASC`. -/
def rankedBefore (a b : Bid) : Prop :=
  b.bid_price < a.bid_price ∨ (a.bid_price = b.bid_price ∧ a.auction_bid_time < b.auction_bid_time)

instance (a b : Bid) : Decidable (rankedBefore a b) := by
  unfold rankedBefore
  infer_instance

/-- `_get_current_highest_bid`: the first row of the auction's bids under
`ORDER BY bid_price DESC, auction_bid_time ASC` (any status), or `none`.
Among rows equal on both keys the earlier row in scan order is returned. -/
def _get_current_highest_bid : List Bid → Option Bid
  | [] => none
  | b :: bs =>
    match _get_current_highest_bid bs with
    | none => some b
    | some a => if rankedBefore a b then some a else some b

/-- The current price the proxy-bidding loop compares against: the highest
bid's price, or the starting price when the auction has no bids. -/
def currentPrice (s : AuctionState) : Rat :=
  match _get_current_highest_bid s.bids with
  | some b => b.bid_price
  | none => s.starting_price

/-- The user holding the current highest bid, if any. -/
def currentUser (s : AuctionState) : Option Nat :=
  match _get_current_highest_bid s.bids with
  | some b => some b.user_id
  | none => none

/-- `create_alert`: appends an alert row unless the recipient is `None`. -/
def create_alert (user_id : Option Nat) (kind : AlertKind) (alerts : List Alert) : List Alert :=
  match user_id with
  | none => alerts
  | some uid => alerts ++ [⟨uid, kind⟩]

/-- The candidate list one iteration of `_run_auto_bidding` builds: for each
active directive whose ceiling exceeds the current price and whose owner is
not the current highest bidder, the candidate next price
`min(max_bid, current_price + increment)`, kept only if it exceeds the
current price.  Order follows the `auto_bid` table scan order. -/
def autoCandidates (s : AuctionState) : List (Rat × AutoBid) :=
  s.auto_bids.filterMap fun ab =>
    if ab.active = true ∧ currentPrice s < ab.max_bid ∧ currentUser s ≠ some ab.user_id then
      if currentPrice s < min ab.max_bid (currentPrice s + ab.increment) then
        some (min ab.max_bid (currentPrice s + ab.increment), ab)
      else none
    else none

/-- `candidates.sort(key, reverse=True)` followed by taking element 0:
the earliest candidate achieving the maximal new price (Python's sort is
stable, so ties keep scan order). -/
def chooseBest : List (Rat × AutoBid) → Option (Rat × AutoBid)
  | [] => none
  | c :: cs =>
    match chooseBest cs with
    | none => some c
    | some best => if c.1 < best.1 then some best else some c

/-- `UPDATE bid SET bid_status = OUTBID WHERE bid_id = ?`. -/
def markOutbid (bid_id : Nat) (bids : List Bid) : List Bid :=
  bids.map fun b => if b.bid_id = bid_id then { b with bid_status := .OUTBID } else b

/-- The bid list after marking the previous highest bid (if any) OUTBID. -/
def outbidPrevBids (s : AuctionState) : List Bid :=
  match _get_current_highest_bid s.bids with
  | some pb => markOutbid pb.bid_id s.bids
  | none => s.bids

/-- The alert stream after alerting the previous highest bidder (if any)
that they have been outbid. -/
def outbidPrevAlerts (s : AuctionState) : List Alert :=
  match _get_current_highest_bid s.bids with
  | some pb => create_alert (some pb.user_id) (.outbid s.auction_title) s.alerts
  | none => s.alerts

/-- One iteration of the `while True` loop in `_run_auto_bidding`:
`none` when no candidate can raise the price (the loop breaks), otherwise
the state after outbidding the previous highest bidder and inserting the
chosen directive's new LEADING bid. -/
def autoStep (s : AuctionState) : Option AuctionState :=
  match chooseBest (autoCandidates s) with
  | none => none
  | some (new_price, chosen) =>
    some { s with
      bids := outbidPrevBids s ++ [⟨s.next_id, chosen.user_id, new_price, s.next_id, .LEADING⟩],
      alerts := outbidPrevAlerts s,
      next_id := s.next_id + 1 }

/-- The loop of `_run_auto_bidding` run with explicit fuel. -/
def runAutoFuel : Nat → AuctionState → AuctionState
  | 0, s => s
  | fuel + 1, s =>
    match autoStep s with
    | none => s
    | some t => runAutoFuel fuel t

/-- How many directives the fuelled loop actually consumes before reaching
the fixed point (used to compare iteration counts against bounds). -/
def autoStepCount : Nat → AuctionState → Nat
  | 0, _ => 0
  | fuel + 1, s =>
    match autoStep s with
    | none => 0
    | some t => autoStepCount fuel t + 1

/-- Upper bound on how many more times directive `ab` can raise the price
from `p`: zero unless it is active with a positive increment, else the
number of `increment`-sized steps from `p` up to `max_bid`. -/
def directiveSteps (p : Rat) (ab : AutoBid) : Nat :=
  if ab.active = true ∧ 0 < ab.increment then (⌈(ab.max_bid - p) / ab.increment⌉).toNat else 0

/-- Termination measure for the proxy-bidding loop: total remaining steps
over all directives at the current price.  Proved to strictly decrease at
every loop iteration, hence an upper bound on the iteration count. -/
def autoMeasure (s : AuctionState) : Nat :=
  (s.auto_bids.map (directiveSteps (currentPrice s))).sum

/-- `_run_auto_bidding`: the source iterates `while True` until no
candidate remains; we run the fuelled loop with the provably sufficient
fuel `autoMeasure s`, which reaches the same fixed point. -/
def _run_auto_bidding (s : AuctionState) : AuctionState :=
  runAutoFuel (autoMeasure s) s

/-- Outcome of a manual bid POST on the auction view. -/
inductive BidOutcome
  | notLoggedIn
  | sellerRejected
  | endedRejected
  | invalidAmount
  | tooLow (min_required : Rat)
  | accepted
deriving DecidableEq, Repr

/-- The minimum-acceptable bound the view computes: the starting price,
raised to the previous highest bid's price when one exists. -/
def minRequired (s : AuctionState) : Rat :=
  match _get_current_highest_bid s.bids with
  | some pb => max s.starting_price pb.bid_price
  | none => s.starting_price

/-- `UPDATE bid SET bid_status = OUTBID WHERE bid_status IN (PLACED, LEADING)`
for the auction. -/
def outbidAllBids (s : AuctionState) : List Bid :=
  s.bids.map fun b =>
    if b.bid_status = .PLACED ∨ b.bid_status = .LEADING then { b with bid_status := .OUTBID } else b

/-- The accepted-bid write sequence of the view: every bid of the auction
in PLACED or LEADING status becomes OUTBID, the previous highest bidder
(if any) is alerted, and a new LEADING bid is inserted for the bidder. -/
def insertManualBid (uid : Nat) (amount : Rat) (s : AuctionState) : AuctionState :=
  { s with
    bids := outbidAllBids s ++ [⟨s.next_id, uid, amount, s.next_id, .LEADING⟩],
    alerts := outbidPrevAlerts s,
    next_id := s.next_id + 1 }

/-- After the bid and the auto-bidding run, the view refreshes the cached
`auctions.current_highest_bid` column from the highest bid. -/
def refreshHighestCache (s : AuctionState) : AuctionState :=
  match _get_current_highest_bid s.bids with
  | some hb => { s with current_highest_bid := some hb.bid_price }
  | none => s

/-- The POST branch of the auction `view` route: guard checks in source
order (login, seller, ended auction, amount parse), then the strict
`bid_amount <= min_required` rejection, then the accepted-bid writes
followed by `_run_auto_bidding` and the cache refresh.  `user = none`
models an anonymous request and `amount = none` a malformed decimal. -/
def place_bid (now : Nat) (user : Option Nat) (amount : Option Rat) (s : AuctionState) :
    BidOutcome × AuctionState :=
  match user with
  | none => (.notLoggedIn, s)
  | some uid =>
    if uid = s.seller_id then (.sellerRejected, s)
    else if s.auction_end < now then (.endedRejected, s)
    else
      match amount with
      | none => (.invalidAmount, s)
      | some bid_amount =>
        if bid_amount ≤ minRequired s then (.tooLow (minRequired s), s)
        else (.accepted, refreshHighestCache (_run_auto_bidding (insertManualBid uid bid_amount s)))

/-- The `set_auto_bid` route: validate both numbers positive, then upsert
the (auction, user) directive with `active = 1`, then run auto-bidding.
The route performs no close-time or settlement check. -/
def set_auto_bid (user_id : Nat) (max_bid increment : Rat) (s : AuctionState) : AuctionState :=
  if max_bid ≤ 0 ∨ increment ≤ 0 then s
  else
    let s1 :=
      if s.auto_bids.any fun ab => ab.user_id = user_id then
        { s with auto_bids := s.auto_bids.map fun ab =>
            if ab.user_id = user_id then
              { ab with max_bid := max_bid, increment := increment, active := true }
            else ab }
      else
        { s with auto_bids := s.auto_bids ++ [⟨s.next_id, user_id, max_bid, increment, true⟩],
                 next_id := s.next_id + 1 }
    _run_auto_bidding s1

/-- `EXISTS (SELECT 1 FROM bid WHERE auction_id = ? AND bid_status = LEADING)`. -/
def hasLeading (bids : List Bid) : Bool :=
  bids.any fun b => b.bid_status == .LEADING

/-- The settlement query for one auction: the LEADING bid of maximal price
(`ORDER BY bid_price DESC LIMIT 1`, earlier row winning exact ties). -/
def leadingHighest : List Bid → Option Bid
  | [] => none
  | b :: bs =>
    let rest := leadingHighest bs
    if b.bid_status = .LEADING then
      match rest with
      | none => some b
      | some a => if b.bid_price < a.bid_price then some a else some b
    else rest

/-- The per-row status update settlement applies once the LEADING bid `hb`
is selected: `hb`'s row becomes WON; every other row still in OUTBID or
PLACED becomes LOST; remaining rows are untouched. -/
def settleBid (hb b : Bid) : Bid :=
  if b.bid_id = hb.bid_id then { b with bid_status := .WON }
  else if b.bid_status = .OUTBID ∨ b.bid_status = .PLACED then { b with bid_status := .LOST }
  else b

/-- `_process_ended_auctions` restricted to one auction: if its close time
has passed and a LEADING bid remains, promote that bid to WON, demote every
other OUTBID or PLACED bid to LOST, and alert the winner with the winning
price; otherwise the auction is skipped untouched. -/
def _process_ended_auctions (now : Nat) (s : AuctionState) : AuctionState :=
  if s.auction_end < now ∧ hasLeading s.bids = true then
    match leadingHighest s.bids with
    | none => s
    | some hb =>
      { s with
        bids := s.bids.map (settleBid hb),
        alerts := s.alerts ++ [⟨hb.user_id, .won s.auction_title hb.bid_price⟩] }
  else s

/-- The engine operations a request can trigger on one auction. -/
inductive EngineOp
  | placeBid (now : Nat) (user : Option Nat) (amount : Option Rat)
  | setAutoBid (user_id : Nat) (max_bid increment : Rat)
  | settle (now : Nat)

/-- Apply one engine operation to the ledger state. -/
def applyOp : EngineOp → AuctionState → AuctionState
  | .placeBid now u a, s => (place_bid now u a s).2
  | .setAutoBid u m i, s => set_auto_bid u m i s
  | .settle now, s => _process_ended_auctions now s

/-- Apply a sequence of engine operations in order. -/
def runOps (ops : List EngineOp) (s : AuctionState) : AuctionState :=
  ops.foldl (fun t op => applyOp op t) s

/-- A freshly created auction: no bids, no directives, no alerts. -/
def initState (sp : Rat) (endt : Nat) (seller : Nat) (title : String) : AuctionState :=
  ⟨sp, endt, seller, title, [], [], [], none, 0⟩

/-! ### Facts about the highest-bid query -/

theorem highest_cons (a : Bid) (bs : List Bid) :
    _get_current_highest_bid (a :: bs) =
      match _get_current_highest_bid bs with
      | none => some a
      | some c => if rankedBefore c a then some c else some a := rfl

theorem highest_ne_none_of_mem {x : Bid} {l : List Bid} (hx : x ∈ l) :
    _get_current_highest_bid l ≠ none := by
  induction l with
  | nil => simp at hx
  | cons a t ih =>
    rw [highest_cons]
    cases ht : _get_current_highest_bid t with
    | none => simp
    | some c => by_cases hr : rankedBefore c a <;> simp [hr]

theorem highest_eq_none {l : List Bid} : _get_current_highest_bid l = none ↔ l = [] := by
  constructor
  · intro h
    cases l with
    | nil => rfl
    | cons a bs => exact absurd h (highest_ne_none_of_mem (List.mem_cons_self a bs))
  · intro h; subst h; rfl

theorem highest_mem {l : List Bid} {b : Bid} (h : _get_current_highest_bid l = some b) :
    b ∈ l := by
  induction l with
  | nil => simp [_get_current_highest_bid] at h
  | cons a bs ih =>
    rw [highest_cons] at h
    cases hb : _get_current_highest_bid bs with
    | none => rw [hb] at h; simp at h; simp [h]
    | some c =>
      rw [hb] at h
      by_cases hr : rankedBefore c a
      · simp [hr] at h; subst h; exact List.mem_cons_of_mem _ (ih hb)
      · simp [hr] at h; simp [h]

theorem highest_max {l : List Bid} :
    ∀ {b : Bid}, _get_current_highest_bid l = some b → ∀ x ∈ l, x.bid_price ≤ b.bid_price := by
  induction l with
  | nil => intro b h; simp [_get_current_highest_bid] at h
  | cons a bs ih =>
    intro b h
    rw [highest_cons] at h
    cases hb : _get_current_highest_bid bs with
    | none =>
      rw [hb] at h
      simp at h
      rw [highest_eq_none] at hb
      subst hb
      intro x hx
      rcases List.mem_cons.mp hx with hx | hx
      · rw [hx, h]
      · simp at hx
    | some c =>
      rw [hb] at h
      replace h : (if rankedBefore c a then some c else some a) = some b := h
      by_cases hr : rankedBefore c a
      · rw [if_pos hr] at h
        injection h with h
        subst h
        intro x hx
        rcases List.mem_cons.mp hx with hx | hx
        · subst hx
          rcases hr with hr | hr
          · exact le_of_lt hr
          · exact le_of_eq hr.1.symm
        · exact ih hb x hx
      · rw [if_neg hr] at h
        injection h with h
        intro x hx
        have hca : c.bid_price ≤ a.bid_price := by
          rcases le_or_lt c.bid_price a.bid_price with hle | hlt
          · exact hle
          · exact absurd (Or.inl hlt) hr
        rcases List.mem_cons.mp hx with hx | hx
        · rw [hx, h]
        · exact le_trans (ih hb x hx) (h ▸ hca)

theorem highest_append_max {l : List Bid} {nb : Bid}
    (h : ∀ x ∈ l, x.bid_price < nb.bid_price) :
    _get_current_highest_bid (l ++ [nb]) = some nb := by
  induction l with
  | nil => rfl
  | cons a bs ih =>
    have hbs : _get_current_highest_bid (bs ++ [nb]) = some nb :=
      ih fun x hx => h x (List.mem_cons_of_mem _ hx)
    have ha : a.bid_price < nb.bid_price := h a (List.mem_cons_self a bs)
    have hr : rankedBefore nb a := Or.inl ha
    rw [List.cons_append, highest_cons, hbs]
    show (if rankedBefore nb a then some nb else some a) = some nb
    rw [if_pos hr]

theorem highest_map {f : Bid → Bid} (hp : ∀ b, (f b).bid_price = b.bid_price)
    (ht : ∀ b, (f b).auction_bid_time = b.auction_bid_time) (l : List Bid) :
    _get_current_highest_bid (l.map f) = Option.map f (_get_current_highest_bid l) := by
  induction l with
  | nil => rfl
  | cons a bs ih =>
    rw [List.map_cons, highest_cons, ih, highest_cons]
    cases hb : _get_current_highest_bid bs with
    | none => rfl
    | some c =>
      have hiff : rankedBefore (f c) (f a) ↔ rankedBefore c a := by
        unfold rankedBefore
        rw [hp, hp, ht, ht]
      by_cases hr : rankedBefore c a
      · show (if rankedBefore (f c) (f a) then some (f c) else some (f a))
            = Option.map f (if rankedBefore c a then some c else some a)
        rw [if_pos (hiff.mpr hr), if_pos hr]
        rfl
      · show (if rankedBefore (f c) (f a) then some (f c) else some (f a))
            = Option.map f (if rankedBefore c a then some c else some a)
        rw [if_neg (fun hcon => hr (hiff.mp hcon)), if_neg hr]
        rfl

/-! ### Facts about the settlement query, the candidate choice and OUTBID marking -/

theorem leadingHighest_mem {l : List Bid} {b : Bid} (h : leadingHighest l = some b) :
    b ∈ l ∧ b.bid_status = .LEADING := by
  induction l with
  | nil => simp [leadingHighest] at h
  | cons a bs ih =>
    unfold leadingHighest at h
    by_cases ha : a.bid_status = .LEADING
    · rw [if_pos ha] at h
      cases hb : leadingHighest bs with
      | none => rw [hb] at h; simp at h; subst h; exact ⟨List.mem_cons_self _ _, ha⟩
      | some c =>
        rw [hb] at h
        replace h : (if a.bid_price < c.bid_price then some c else some a) = some b := h
        by_cases hr : a.bid_price < c.bid_price
        · rw [if_pos hr] at h
          injection h with h
          subst h
          exact ⟨List.mem_cons_of_mem _ (ih hb).1, (ih hb).2⟩
        · rw [if_neg hr] at h
          injection h with h
          subst h
          exact ⟨List.mem_cons_self _ _, ha⟩
    · rw [if_neg ha] at h
      exact ⟨List.mem_cons_of_mem _ (ih h).1, (ih h).2⟩

theorem leadingHighest_eq_none {l : List Bid} :
    leadingHighest l = none ↔ hasLeading l = false := by
  induction l with
  | nil => simp [leadingHighest, hasLeading]
  | cons a bs ih =>
    unfold leadingHighest hasLeading
    unfold hasLeading at ih
    by_cases ha : a.bid_status = .LEADING
    · rw [if_pos ha]
      cases hb : leadingHighest bs with
      | none => simp [ha]
      | some c => by_cases hr : a.bid_price < c.bid_price <;> simp [hr, ha]
    · rw [if_neg ha]
      simp only [List.any_cons, Bool.or_eq_false_iff]
      rw [ih]
      have : (a.bid_status == BidStatus.LEADING) = false := by
        simp [ha]
      simp [this]

theorem chooseBest_eq_none {l : List (Rat × AutoBid)} : chooseBest l = none ↔ l = [] := by
  cases l with
  | nil => simp [chooseBest]
  | cons a t =>
    simp only [chooseBest]
    cases chooseBest t with
    | none => simp
    | some d =>
      show (if a.1 < d.1 then some d else some a) = none ↔ a :: t = []
      by_cases hr : a.1 < d.1 <;> simp [hr]

theorem chooseBest_mem {l : List (Rat × AutoBid)} {c : Rat × AutoBid}
    (h : chooseBest l = some c) : c ∈ l := by
  induction l with
  | nil => simp [chooseBest] at h
  | cons a t ih =>
    unfold chooseBest at h
    cases hb : chooseBest t with
    | none => rw [hb] at h; simp at h; simp [h]
    | some d =>
      rw [hb] at h
      replace h : (if a.1 < d.1 then some d else some a) = some c := h
      by_cases hr : a.1 < d.1
      · rw [if_pos hr] at h; injection h with h; subst h; exact List.mem_cons_of_mem _ (ih hb)
      · rw [if_neg hr] at h; injection h with h; subst h; exact List.mem_cons_self _ _

theorem chooseBest_max {l : List (Rat × AutoBid)} :
    ∀ {c : Rat × AutoBid}, chooseBest l = some c → ∀ x ∈ l, x.1 ≤ c.1 := by
  induction l with
  | nil => intro c h; simp [chooseBest] at h
  | cons a t ih =>
    intro c h
    unfold chooseBest at h
    cases hb : chooseBest t with
    | none =>
      rw [hb] at h
      simp at h
      have ht : t = [] := chooseBest_eq_none.mp hb
      subst ht
      intro x hx
      rcases List.mem_cons.mp hx with hx | hx
      · rw [hx, h]
      · simp at hx
    | some d =>
      rw [hb] at h
      replace h : (if a.1 < d.1 then some d else some a) = some c := h
      by_cases hr : a.1 < d.1
      · rw [if_pos hr] at h
        injection h with h
        subst h
        intro x hx
        rcases List.mem_cons.mp hx with hx | hx
        · rw [hx]; exact le_of_lt hr
        · exact ih hb x hx
      · rw [if_neg hr] at h
        injection h with h
        subst h
        intro x hx
        rcases List.mem_cons.mp hx with hx | hx
        · rw [hx]
        · exact le_trans (ih hb x hx) (le_of_not_lt hr)

theorem mem_autoCandidates {s : AuctionState} {np : Rat} {ab : AutoBid}
    (h : (np, ab) ∈ autoCandidates s) :
    ab ∈ s.auto_bids ∧ ab.active = true ∧ currentPrice s < ab.max_bid ∧
      currentUser s ≠ some ab.user_id ∧
      np = min ab.max_bid (currentPrice s + ab.increment) ∧
      currentPrice s < np ∧ 0 < ab.increment := by
  unfold autoCandidates at h
  rcases List.mem_filterMap.mp h with ⟨d, hd, hfd⟩
  by_cases h1 : d.active = true ∧ currentPrice s < d.max_bid ∧ currentUser s ≠ some d.user_id
  · rw [if_pos h1] at hfd
    by_cases h2 : currentPrice s < min d.max_bid (currentPrice s + d.increment)
    · rw [if_pos h2] at hfd
      injection hfd with hpair
      have hnp : min d.max_bid (currentPrice s + d.increment) = np := congrArg Prod.fst hpair
      have hab : d = ab := congrArg Prod.snd hpair
      subst hab
      have hinc : 0 < d.increment := by
        have := lt_of_lt_of_le h2 (min_le_right _ _)
        linarith
      exact ⟨hd, h1.1, h1.2.1, h1.2.2, hnp.symm, hnp ▸ h2, hinc⟩
    · rw [if_neg h2] at hfd; exact absurd hfd (by simp)
  · rw [if_neg h1] at hfd; exact absurd hfd (by simp)

theorem mem_markOutbid {i : Nat} {l : List Bid} {x : Bid} (hx : x ∈ markOutbid i l) :
    ∃ b ∈ l, x = (if b.bid_id = i then { b with bid_status := .OUTBID } else b) := by
  unfold markOutbid at hx
  rcases List.mem_map.mp hx with ⟨b, hb, hfb⟩
  exact ⟨b, hb, hfb.symm⟩

theorem mem_markOutbid_fields {i : Nat} {l : List Bid} {x : Bid} (hx : x ∈ markOutbid i l) :
    ∃ b ∈ l, x.bid_id = b.bid_id ∧ x.bid_price = b.bid_price ∧ x.user_id = b.user_id ∧
      x.auction_bid_time = b.auction_bid_time ∧
      (x.bid_status = .LEADING → x = b ∧ b.bid_status = .LEADING ∧ b.bid_id ≠ i) := by
  rcases mem_markOutbid hx with ⟨b, hb, hfb⟩
  by_cases hid : b.bid_id = i
  · rw [if_pos hid] at hfb
    subst hfb
    exact ⟨b, hb, rfl, rfl, rfl, rfl, by intro hcon; exact absurd hcon (by simp)⟩
  · rw [if_neg hid] at hfb
    subst hfb
    exact ⟨x, hb, rfl, rfl, rfl, rfl, fun hl => ⟨rfl, hl, hid⟩⟩

theorem autoStep_eq_some {s s' : AuctionState} (h : autoStep s = some s') :
    ∃ np ab, chooseBest (autoCandidates s) = some (np, ab) ∧
      s' = { s with
        bids := outbidPrevBids s ++ [⟨s.next_id, ab.user_id, np, s.next_id, .LEADING⟩],
        alerts := outbidPrevAlerts s,
        next_id := s.next_id + 1 } := by
  unfold autoStep at h
  cases hc : chooseBest (autoCandidates s) with
  | none => rw [hc] at h; exact absurd h (by simp)
  | some c =>
    obtain ⟨np, ab⟩ := c
    rw [hc] at h
    injection h with h
    exact ⟨np, ab, rfl, h.symm⟩

theorem autoStep_eq_none {s : AuctionState} :
    autoStep s = none ↔ chooseBest (autoCandidates s) = none := by
  unfold autoStep
  cases hc : chooseBest (autoCandidates s) with
  | none => simp
  | some c => obtain ⟨np, ab⟩ := c; simp

theorem outbidPrevBids_price_le {s : AuctionState} :
    ∀ x ∈ outbidPrevBids s, x.bid_price ≤ currentPrice s := by
  unfold outbidPrevBids currentPrice
  cases hb : _get_current_highest_bid s.bids with
  | none =>
    rw [highest_eq_none] at hb
    rw [hb]
    simp
  | some pb =>
    intro x hx
    rcases mem_markOutbid_fields hx with ⟨b, hbmem, _, hp, _⟩
    rw [hp]
    exact highest_max hb b hbmem

/-! ### Strict price increase and termination of the proxy-bidding loop -/

theorem autoStep_price_lt {s s' : AuctionState} (h : autoStep s = some s') :
    ∃ np ab, chooseBest (autoCandidates s) = some (np, ab) ∧
      currentPrice s < np ∧ currentPrice s' = np ∧
      s'.auto_bids = s.auto_bids ∧ s'.next_id = s.next_id + 1 := by
  rcases autoStep_eq_some h with ⟨np, ab, hc, hs⟩
  have hcand := mem_autoCandidates (chooseBest_mem hc)
  have hlt : currentPrice s < np := hcand.2.2.2.2.2.1
  have hall : ∀ x ∈ outbidPrevBids s, x.bid_price < np :=
    fun x hx => lt_of_le_of_lt (outbidPrevBids_price_le x hx) hlt
  refine ⟨np, ab, hc, hlt, ?_, by rw [hs], by rw [hs]⟩
  subst hs
  show currentPrice { s with
    bids := outbidPrevBids s ++ [⟨s.next_id, ab.user_id, np, s.next_id, .LEADING⟩],
    alerts := outbidPrevAlerts s, next_id := s.next_id + 1 } = np
  unfold currentPrice
  rw [show ({ s with
    bids := outbidPrevBids s ++ [⟨s.next_id, ab.user_id, np, s.next_id, .LEADING⟩],
    alerts := outbidPrevAlerts s, next_id := s.next_id + 1 } : AuctionState).bids
      = outbidPrevBids s ++ [⟨s.next_id, ab.user_id, np, s.next_id, .LEADING⟩] from rfl]
  rw [highest_append_max hall]

theorem directiveSteps_mono {p q : Rat} (hpq : p ≤ q) (ab : AutoBid) :
    directiveSteps q ab ≤ directiveSteps p ab := by
  unfold directiveSteps
  by_cases hg : ab.active = true ∧ 0 < ab.increment
  · rw [if_pos hg, if_pos hg]
    have h1 : (ab.max_bid - q) / ab.increment ≤ (ab.max_bid - p) / ab.increment :=
      (div_le_div_iff_of_pos_right hg.2).mpr (by linarith)
    exact Int.toNat_le_toNat (Int.ceil_le_ceil h1)
  · rw [if_neg hg, if_neg hg]

theorem directiveSteps_pos {p : Rat} {ab : AutoBid} (ha : ab.active = true)
    (hi : 0 < ab.increment) (hm : p < ab.max_bid) : 1 ≤ directiveSteps p ab := by
  unfold directiveSteps
  rw [if_pos ⟨ha, hi⟩]
  have h1 : (0 : Rat) < (ab.max_bid - p) / ab.increment := div_pos (by linarith) hi
  have h2 : 0 < ⌈(ab.max_bid - p) / ab.increment⌉ := Int.ceil_pos.mpr h1
  omega

theorem directiveSteps_strict {p : Rat} {ab : AutoBid} (ha : ab.active = true)
    (hi : 0 < ab.increment) (hm : p < ab.max_bid) :
    directiveSteps (min ab.max_bid (p + ab.increment)) ab < directiveSteps p ab := by
  rcases le_or_lt ab.max_bid (p + ab.increment) with hcase | hcase
  · rw [min_eq_left hcase]
    have h0 : directiveSteps ab.max_bid ab = 0 := by
      unfold directiveSteps
      rw [if_pos ⟨ha, hi⟩, sub_self, zero_div]
      simp
    rw [h0]
    exact directiveSteps_pos ha hi hm
  · rw [min_eq_right (le_of_lt hcase)]
    unfold directiveSteps
    rw [if_pos ⟨ha, hi⟩, if_pos ⟨ha, hi⟩]
    have heq : (ab.max_bid - (p + ab.increment)) / ab.increment
        = (ab.max_bid - p) / ab.increment - 1 := by
      field_simp
      ring
    rw [heq, Int.ceil_sub_one]
    have hpos : 0 < ⌈(ab.max_bid - p) / ab.increment⌉ :=
      Int.ceil_pos.mpr (div_pos (by linarith) hi)
    omega

theorem map_sum_le {α : Type} {l : List α} {f g : α → Nat} (h : ∀ x ∈ l, f x ≤ g x) :
    (l.map f).sum ≤ (l.map g).sum := by
  induction l with
  | nil => simp
  | cons a t ih =>
    simp only [List.map_cons, List.sum_cons]
    exact Nat.add_le_add (h a (List.mem_cons_self a t))
      (ih fun x hx => h x (List.mem_cons_of_mem _ hx))

theorem map_sum_lt {α : Type} {l : List α} {f g : α → Nat} (hle : ∀ x ∈ l, f x ≤ g x)
    {a : α} (ha : a ∈ l) (hlt : f a < g a) : (l.map f).sum < (l.map g).sum := by
  induction l with
  | nil => simp at ha
  | cons b t ih =>
    simp only [List.map_cons, List.sum_cons]
    rcases List.mem_cons.mp ha with hab | hat
    · subst hab
      exact Nat.add_lt_add_of_lt_of_le hlt
        (map_sum_le fun x hx => hle x (List.mem_cons_of_mem _ hx))
    · exact Nat.add_lt_add_of_le_of_lt (hle b (List.mem_cons_self b t))
        (ih (fun x hx => hle x (List.mem_cons_of_mem _ hx)) hat)

theorem le_map_sum {α : Type} {l : List α} {f : α → Nat} {a : α} (ha : a ∈ l) :
    f a ≤ (l.map f).sum := by
  induction l with
  | nil => simp at ha
  | cons b t ih =>
    simp only [List.map_cons, List.sum_cons]
    rcases List.mem_cons.mp ha with hab | hat
    · subst hab; exact Nat.le_add_right _ _
    · exact le_trans (ih hat) (Nat.le_add_left _ _)

theorem autoStep_measure_lt {s s' : AuctionState} (h : autoStep s = some s') :
    autoMeasure s' < autoMeasure s := by
  rcases autoStep_price_lt h with ⟨np, ab, hc, hlt, hcp, hauto, _⟩
  have hcand := mem_autoCandidates (chooseBest_mem hc)
  have hstrict : directiveSteps np ab < directiveSteps (currentPrice s) ab := by
    rw [hcand.2.2.2.2.1]
    exact directiveSteps_strict hcand.2.1 hcand.2.2.2.2.2.2 hcand.2.2.1
  unfold autoMeasure
  rw [hauto, hcp]
  exact map_sum_lt (fun x hx => directiveSteps_mono (le_of_lt hlt) x) hcand.1 hstrict

theorem autoStep_measure_pos {s s' : AuctionState} (h : autoStep s = some s') :
    1 ≤ autoMeasure s := by
  rcases autoStep_eq_some h with ⟨np, ab, hc, _⟩
  have hcand := mem_autoCandidates (chooseBest_mem hc)
  exact le_trans (directiveSteps_pos hcand.2.1 hcand.2.2.2.2.2.2 hcand.2.2.1)
    (le_map_sum hcand.1)

theorem runAutoFuel_fixpoint {fuel : Nat} :
    ∀ {s : AuctionState}, autoMeasure s ≤ fuel → autoStep (runAutoFuel fuel s) = none := by
  induction fuel with
  | zero =>
    intro s hm
    cases ha : autoStep s with
    | none => exact ha
    | some t => exact absurd (le_trans (autoStep_measure_pos ha) hm) (by simp)
  | succ n ih =>
    intro s hm
    show autoStep (match autoStep s with | none => s | some t => runAutoFuel n t) = none
    cases ha : autoStep s with
    | none => exact ha
    | some t => exact ih (Nat.le_of_lt_succ (lt_of_lt_of_le (autoStep_measure_lt ha) hm))

theorem run_auto_fixpoint (s : AuctionState) : autoStep (_run_auto_bidding s) = none :=
  runAutoFuel_fixpoint le_rfl

/-! ### The single-leader invariant -/

/-- Number of bids of the auction currently in LEADING status. -/
def leadingCount (s : AuctionState) : Nat :=
  (s.bids.filter fun b => b.bid_status == .LEADING).length

/-- Structural invariant of every ledger state the engine produces: at most
one bid occurrence is LEADING, a LEADING bid strictly out-prices every
other bid, all bid ids are below the rowid counter, and bid ids are
distinct. -/
def Inv (s : AuctionState) : Prop :=
  leadingCount s ≤ 1 ∧
  (∀ b ∈ s.bids, b.bid_status = .LEADING → ∀ c ∈ s.bids, c ≠ b → c.bid_price < b.bid_price) ∧
  (∀ b ∈ s.bids, b.bid_id < s.next_id) ∧
  (s.bids.map Bid.bid_id).Nodup

instance (s : AuctionState) : Decidable (Inv s) := by
  unfold Inv
  infer_instance

theorem Inv_of_nil {s : AuctionState} (h : s.bids = []) : Inv s := by
  refine ⟨?_, ?_, ?_, ?_⟩ <;> simp [leadingCount, h]

theorem Inv_leading_unique {s : AuctionState} (hInv : Inv s) {b c : Bid}
    (hb : b ∈ s.bids) (hbl : b.bid_status = .LEADING)
    (hc : c ∈ s.bids) (hcl : c.bid_status = .LEADING) : b = c := by
  by_contra hne
  have h1 := hInv.2.1 b hb hbl c hc (fun hcon => hne hcon.symm)
  have h2 := hInv.2.1 c hc hcl b hb hne
  exact absurd (lt_trans h1 h2) (lt_irrefl _)

theorem leading_eq_highest {s : AuctionState} (hInv : Inv s) {b : Bid}
    (hb : b ∈ s.bids) (hbl : b.bid_status = .LEADING) :
    _get_current_highest_bid s.bids = some b := by
  cases hh : _get_current_highest_bid s.bids with
  | none => exact absurd hh (highest_ne_none_of_mem hb)
  | some c =>
    by_cases hcb : c = b
    · rw [hcb]
    · have h1 : b.bid_price ≤ c.bid_price := highest_max hh b hb
      have h2 : c.bid_price < b.bid_price := hInv.2.1 b hb hbl c (highest_mem hh) hcb
      exact absurd (lt_of_le_of_lt h1 h2) (lt_irrefl b.bid_price)

theorem mem_outbidPrevBids {s : AuctionState} {x : Bid} (hx : x ∈ outbidPrevBids s) :
    ∃ b ∈ s.bids, x.bid_id = b.bid_id ∧ x.bid_price = b.bid_price ∧ x.user_id = b.user_id ∧
      x.auction_bid_time = b.auction_bid_time := by
  unfold outbidPrevBids at hx
  cases hh : _get_current_highest_bid s.bids with
  | none => rw [hh] at hx; exact ⟨x, hx, rfl, rfl, rfl, rfl⟩
  | some pb =>
    rw [hh] at hx
    rcases mem_markOutbid_fields hx with ⟨b, hb, h1, h2, h3, h4, _⟩
    exact ⟨b, hb, h1, h2, h3, h4⟩

theorem outbidPrevBids_no_leading {s : AuctionState} (hInv : Inv s) :
    ∀ x ∈ outbidPrevBids s, x.bid_status ≠ .LEADING := by
  unfold outbidPrevBids
  cases hh : _get_current_highest_bid s.bids with
  | none =>
    rw [highest_eq_none] at hh
    rw [hh]
    simp
  | some pb =>
    intro x hx hxl
    rcases mem_markOutbid_fields hx with ⟨b, hb, _, _, _, _, himp⟩
    rcases himp hxl with ⟨hxb, hbl, hbne⟩
    have := leading_eq_highest hInv hb hbl
    rw [hh] at this
    injection this with this
    exact hbne (by rw [this])

theorem markOutbid_map_id (i : Nat) (l : List Bid) :
    (markOutbid i l).map Bid.bid_id = l.map Bid.bid_id := by
  unfold markOutbid
  rw [List.map_map]
  apply List.map_congr_left
  intro b _
  by_cases hid : b.bid_id = i <;> simp [hid]

theorem outbidPrevBids_map_id (s : AuctionState) :
    (outbidPrevBids s).map Bid.bid_id = s.bids.map Bid.bid_id := by
  unfold outbidPrevBids
  cases hh : _get_current_highest_bid s.bids with
  | none => rfl
  | some pb => exact markOutbid_map_id pb.bid_id s.bids

theorem Inv_autoStep {s s' : AuctionState} (hInv : Inv s) (h : autoStep s = some s') :
    Inv s' := by
  rcases autoStep_eq_some h with ⟨np, ab, hc, hs⟩
  have hcand := mem_autoCandidates (chooseBest_mem hc)
  have hlt : currentPrice s < np := hcand.2.2.2.2.2.1
  have hall : ∀ x ∈ outbidPrevBids s, x.bid_price < np :=
    fun x hx => lt_of_le_of_lt (outbidPrevBids_price_le x hx) hlt
  have hnl := outbidPrevBids_no_leading hInv
  have hids : ∀ x ∈ outbidPrevBids s, x.bid_id < s.next_id := by
    intro x hx
    rcases mem_outbidPrevBids hx with ⟨b, hb, hid, _⟩
    rw [hid]
    exact hInv.2.2.1 b hb
  subst hs
  refine ⟨?_, ?_, ?_, ?_⟩
  · unfold leadingCount
    show ((outbidPrevBids s ++ [(⟨s.next_id, ab.user_id, np, s.next_id, .LEADING⟩ : Bid)]).filter
      fun b => b.bid_status == .LEADING).length ≤ 1
    rw [List.filter_append]
    rw [List.filter_eq_nil_iff.mpr (fun x hx => by simpa using hnl x hx)]
    simp
  · intro b hb hbl c hc hne
    show c.bid_price < b.bid_price
    rcases List.mem_append.mp hb with hb1 | hb1
    · exact absurd hbl (hnl b hb1)
    · have hbnb : b = ⟨s.next_id, ab.user_id, np, s.next_id, .LEADING⟩ := by simpa using hb1
      subst hbnb
      rcases List.mem_append.mp hc with hc1 | hc1
      · exact hall c hc1
      · exact absurd (by simpa using hc1) hne
  · intro b hb
    show b.bid_id < s.next_id + 1
    rcases List.mem_append.mp hb with hb1 | hb1
    · exact Nat.lt_succ_of_lt (hids b hb1)
    · have : b = ⟨s.next_id, ab.user_id, np, s.next_id, .LEADING⟩ := by simpa using hb1
      rw [this]
      exact Nat.lt_succ_self _
  · show ((outbidPrevBids s ++ [(⟨s.next_id, ab.user_id, np, s.next_id, .LEADING⟩ : Bid)]).map
      Bid.bid_id).Nodup
    rw [List.map_append, outbidPrevBids_map_id]
    simp only [List.map_cons, List.map_nil]
    rw [List.nodup_append]
    refine ⟨hInv.2.2.2, by simp, ?_⟩
    intro a ha hmem
    simp at hmem
    rcases List.mem_map.mp ha with ⟨b, hb, hid⟩
    rw [hmem] at hid
    exact absurd (hid ▸ hInv.2.2.1 b hb) (lt_irrefl _)

theorem Inv_runAutoFuel {fuel : Nat} :
    ∀ {s : AuctionState}, Inv s → Inv (runAutoFuel fuel s) := by
  induction fuel with
  | zero => intro s h; exact h
  | succ n ih =>
    intro s h
    show Inv (match autoStep s with | none => s | some t => runAutoFuel n t)
    cases ha : autoStep s with
    | none => exact h
    | some t => exact ih (Inv_autoStep h ha)

theorem Inv_run_auto_bidding {s : AuctionState} (h : Inv s) : Inv (_run_auto_bidding s) :=
  Inv_runAutoFuel h

theorem mem_outbidAllBids {s : AuctionState} {x : Bid} (hx : x ∈ outbidAllBids s) :
    ∃ b ∈ s.bids, x.bid_id = b.bid_id ∧ x.bid_price = b.bid_price ∧ x.user_id = b.user_id ∧
      x.auction_bid_time = b.auction_bid_time ∧ x.bid_status ≠ .LEADING := by
  unfold outbidAllBids at hx
  rcases List.mem_map.mp hx with ⟨b, hb, hfb⟩
  by_cases hcase : b.bid_status = .PLACED ∨ b.bid_status = .LEADING
  · have hxe : x = { b with bid_status := .OUTBID } := by rw [← hfb]; simp [hcase]
    subst hxe
    exact ⟨b, hb, rfl, rfl, rfl, rfl, by simp⟩
  · have hxe : x = b := by rw [← hfb]; simp [hcase]
    subst hxe
    exact ⟨x, hb, rfl, rfl, rfl, rfl, fun hl => hcase (Or.inr hl)⟩

theorem outbidAllBids_map_id (s : AuctionState) :
    (outbidAllBids s).map Bid.bid_id = s.bids.map Bid.bid_id := by
  unfold outbidAllBids
  rw [List.map_map]
  apply List.map_congr_left
  intro b _
  by_cases hcase : b.bid_status = .PLACED ∨ b.bid_status = .LEADING <;> simp [hcase]

theorem bid_price_le_minRequired {s : AuctionState} {b : Bid} (hb : b ∈ s.bids) :
    b.bid_price ≤ minRequired s := by
  unfold minRequired
  cases hh : _get_current_highest_bid s.bids with
  | none => rw [highest_eq_none] at hh; rw [hh] at hb; simp at hb
  | some pb => exact le_trans (highest_max hh b hb) (le_max_right _ _)

theorem Inv_insertManualBid {s : AuctionState} {uid : Nat} {amount : Rat}
    (hInv : Inv s) (hgt : minRequired s < amount) : Inv (insertManualBid uid amount s) := by
  have hnl : ∀ x ∈ outbidAllBids s, x.bid_status ≠ .LEADING := by
    intro x hx
    rcases mem_outbidAllBids hx with ⟨b, _, _, _, _, _, h⟩
    exact h
  have hall : ∀ x ∈ outbidAllBids s, x.bid_price < amount := by
    intro x hx
    rcases mem_outbidAllBids hx with ⟨b, hb, _, hp, _, _, _⟩
    rw [hp]
    exact lt_of_le_of_lt (bid_price_le_minRequired hb) hgt
  have hids : ∀ x ∈ outbidAllBids s, x.bid_id < s.next_id := by
    intro x hx
    rcases mem_outbidAllBids hx with ⟨b, hb, hid, _⟩
    rw [hid]
    exact hInv.2.2.1 b hb
  unfold insertManualBid
  refine ⟨?_, ?_, ?_, ?_⟩
  · unfold leadingCount
    show ((outbidAllBids s ++ [(⟨s.next_id, uid, amount, s.next_id, .LEADING⟩ : Bid)]).filter
      fun b => b.bid_status == .LEADING).length ≤ 1
    rw [List.filter_append, List.filter_eq_nil_iff.mpr (fun x hx => by simpa using hnl x hx)]
    simp
  · intro b hb hbl c hc hne
    show c.bid_price < b.bid_price
    rcases List.mem_append.mp hb with hb1 | hb1
    · exact absurd hbl (hnl b hb1)
    · have hbnb : b = ⟨s.next_id, uid, amount, s.next_id, .LEADING⟩ := by simpa using hb1
      subst hbnb
      rcases List.mem_append.mp hc with hc1 | hc1
      · exact hall c hc1
      · exact absurd (by simpa using hc1) hne
  · intro b hb
    show b.bid_id < s.next_id + 1
    rcases List.mem_append.mp hb with hb1 | hb1
    · exact Nat.lt_succ_of_lt (hids b hb1)
    · have hbnb : b = ⟨s.next_id, uid, amount, s.next_id, .LEADING⟩ := by simpa using hb1
      rw [hbnb]
      exact Nat.lt_succ_self _
  · show ((outbidAllBids s ++ [(⟨s.next_id, uid, amount, s.next_id, .LEADING⟩ : Bid)]).map
      Bid.bid_id).Nodup
    rw [List.map_append, outbidAllBids_map_id]
    simp only [List.map_cons, List.map_nil]
    rw [List.nodup_append]
    refine ⟨hInv.2.2.2, by simp, ?_⟩
    intro a ha hmem
    simp at hmem
    rcases List.mem_map.mp ha with ⟨b, hb, hid⟩
    rw [hmem] at hid
    exact absurd (hid ▸ hInv.2.2.1 b hb) (lt_irrefl _)

theorem refreshHighestCache_fields (s : AuctionState) :
    (refreshHighestCache s).bids = s.bids ∧ (refreshHighestCache s).next_id = s.next_id ∧
      (refreshHighestCache s).alerts = s.alerts := by
  unfold refreshHighestCache
  cases _get_current_highest_bid s.bids <;> exact ⟨rfl, rfl, rfl⟩

theorem Inv_refreshHighestCache {s : AuctionState} (h : Inv s) : Inv (refreshHighestCache s) := by
  unfold Inv leadingCount
  rw [(refreshHighestCache_fields s).1, (refreshHighestCache_fields s).2.1]
  exact h

theorem Inv_place_bid {now : Nat} {u : Option Nat} {a : Option Rat} {s : AuctionState}
    (hInv : Inv s) : Inv (place_bid now u a s).2 := by
  unfold place_bid
  cases u with
  | none => exact hInv
  | some uid =>
    by_cases h1 : uid = s.seller_id
    · simp only [if_pos h1]; exact hInv
    · simp only [if_neg h1]
      by_cases h2 : s.auction_end < now
      · simp only [if_pos h2]; exact hInv
      · simp only [if_neg h2]
        cases a with
        | none => exact hInv
        | some amt =>
          by_cases h3 : amt ≤ minRequired s
          · simp only [if_pos h3]; exact hInv
          · simp only [if_neg h3]
            exact Inv_refreshHighestCache
              (Inv_run_auto_bidding (Inv_insertManualBid hInv (lt_of_not_le h3)))

theorem Inv_set_auto_bid {u : Nat} {m i : Rat} {s : AuctionState} (hInv : Inv s) :
    Inv (set_auto_bid u m i s) := by
  unfold set_auto_bid
  split
  · exact hInv
  · split
    · exact Inv_run_auto_bidding hInv
    · apply Inv_run_auto_bidding
      refine ⟨hInv.1, hInv.2.1, ?_, hInv.2.2.2⟩
      intro b hb
      exact Nat.lt_succ_of_lt (hInv.2.2.1 b hb)

theorem settleBid_fields (hb b : Bid) :
    (settleBid hb b).bid_id = b.bid_id ∧ (settleBid hb b).bid_price = b.bid_price ∧
      (settleBid hb b).user_id = b.user_id ∧
      (settleBid hb b).auction_bid_time = b.auction_bid_time := by
  unfold settleBid
  by_cases h1 : b.bid_id = hb.bid_id
  · simp [h1]
  · by_cases h2 : b.bid_status = .OUTBID ∨ b.bid_status = .PLACED <;> simp [h1, h2]

theorem settleBid_not_leading {s : AuctionState} (hInv : Inv s) {hb : Bid}
    (hhb : leadingHighest s.bids = some hb) {b : Bid} (hbmem : b ∈ s.bids) :
    (settleBid hb b).bid_status ≠ .LEADING := by
  unfold settleBid
  by_cases h1 : b.bid_id = hb.bid_id
  · simp [h1]
  · rw [if_neg h1]
    by_cases h2 : b.bid_status = .OUTBID ∨ b.bid_status = .PLACED
    · simp [h2]
    · rw [if_neg h2]
      intro hl
      rcases leadingHighest_mem hhb with ⟨hmem, hlead⟩
      have hbe := Inv_leading_unique hInv hbmem hl hmem hlead
      exact h1 (by rw [hbe])

theorem Inv_process {now : Nat} {s : AuctionState} (hInv : Inv s) :
    Inv (_process_ended_auctions now s) := by
  unfold _process_ended_auctions
  split
  · cases hhb : leadingHighest s.bids with
    | none => exact hInv
    | some hb =>
      refine ⟨?_, ?_, ?_, ?_⟩
      · unfold leadingCount
        show ((s.bids.map (settleBid hb)).filter fun b => b.bid_status == .LEADING).length ≤ 1
        rw [List.filter_eq_nil_iff.mpr ?_]
        · simp
        · intro x hx
          rcases List.mem_map.mp hx with ⟨b, hbmem, hfb⟩
          subst hfb
          simpa using settleBid_not_leading hInv hhb hbmem
      · intro b hb1 hbl
        rcases List.mem_map.mp hb1 with ⟨c, hcmem, hfc⟩
        subst hfc
        exact absurd hbl (settleBid_not_leading hInv hhb hcmem)
      · intro b hb1
        show b.bid_id < s.next_id
        rcases List.mem_map.mp hb1 with ⟨c, hcmem, hfc⟩
        subst hfc
        rw [(settleBid_fields hb c).1]
        exact hInv.2.2.1 c hcmem
      · show ((s.bids.map (settleBid hb)).map Bid.bid_id).Nodup
        rw [List.map_map]
        have hcomp : (Bid.bid_id ∘ settleBid hb) = Bid.bid_id :=
          funext fun c => (settleBid_fields hb c).1
        rw [hcomp]
        exact hInv.2.2.2
  · exact hInv

theorem Inv_applyOp {op : EngineOp} {s : AuctionState} (hInv : Inv s) : Inv (applyOp op s) := by
  cases op with
  | placeBid now u a => exact Inv_place_bid hInv
  | setAutoBid u m i => exact Inv_set_auto_bid hInv
  | settle now => exact Inv_process hInv

theorem Inv_runOps {s : AuctionState} (hInv : Inv s) (ops : List EngineOp) :
    Inv (runOps ops s) := by
  induction ops generalizing s with
  | nil => exact hInv
  | cons op t ih => exact ih (Inv_applyOp hInv)

/-! ### Monotonicity of the leading price -/

theorem bid_price_le_currentPrice {s : AuctionState} {b : Bid} (hb : b ∈ s.bids) :
    b.bid_price ≤ currentPrice s := by
  unfold currentPrice
  cases hh : _get_current_highest_bid s.bids with
  | none => rw [highest_eq_none] at hh; rw [hh] at hb; simp at hb
  | some pb => exact highest_max hh b hb

theorem runAuto_leading_ge {fuel : Nat} :
    ∀ {s : AuctionState}, Inv s → ∀ {d : Bid}, d ∈ s.bids → d.bid_status = .LEADING →
      ∀ {c : Bid}, c ∈ (runAutoFuel fuel s).bids → c.bid_status = .LEADING →
        d.bid_price ≤ c.bid_price := by
  induction fuel with
  | zero =>
    intro s hInv d hd hdl c hc hcl
    exact le_of_eq (by rw [Inv_leading_unique hInv hd hdl hc hcl])
  | succ n ih =>
    intro s hInv d hd hdl c
    show c ∈ (match autoStep s with
        | none => s
        | some t => runAutoFuel n t).bids → c.bid_status = .LEADING → d.bid_price ≤ c.bid_price
    cases ha : autoStep s with
    | none =>
      intro hc hcl
      exact le_of_eq (by rw [Inv_leading_unique hInv hd hdl hc hcl])
    | some t =>
      intro hc hcl
      rcases autoStep_eq_some ha with ⟨np, ab, hcb, hts⟩
      have hlt : currentPrice s < np := (mem_autoCandidates (chooseBest_mem hcb)).2.2.2.2.2.1
      have hnb : (⟨s.next_id, ab.user_id, np, s.next_id, .LEADING⟩ : Bid) ∈ t.bids := by
        rw [hts]
        exact List.mem_append_right _ (List.mem_singleton.mpr rfl)
      have hd2 : d.bid_price ≤ np := le_trans (bid_price_le_currentPrice hd) (le_of_lt hlt)
      exact le_trans hd2 (ih (Inv_autoStep hInv ha) hnb rfl hc hcl)

/-- Case analysis of the manual-bid route: either a guard rejects the bid
and the state is untouched, or the bid exceeds the minimum and the full
accepted-bid pipeline runs. -/
theorem place_bid_cases (now : Nat) (u : Option Nat) (a : Option Rat) (s : AuctionState) :
    ((place_bid now u a s).1 ≠ .accepted ∧ (place_bid now u a s).2 = s) ∨
    ∃ uid amt, u = some uid ∧ a = some amt ∧ minRequired s < amt ∧
      (place_bid now u a s).1 = .accepted ∧
      (place_bid now u a s).2
        = refreshHighestCache (_run_auto_bidding (insertManualBid uid amt s)) := by
  unfold place_bid
  cases u with
  | none => left; exact ⟨by simp, rfl⟩
  | some uid =>
    by_cases h1 : uid = s.seller_id
    · left; simp only [if_pos h1]; exact ⟨by simp, trivial⟩
    · simp only [if_neg h1]
      by_cases h2 : s.auction_end < now
      · left; simp only [if_pos h2]; exact ⟨by simp, trivial⟩
      · simp only [if_neg h2]
        cases a with
        | none => left; exact ⟨by simp, rfl⟩
        | some amt =>
          by_cases h3 : amt ≤ minRequired s
          · left; simp only [if_pos h3]; exact ⟨by simp, trivial⟩
          · right
            exact ⟨uid, amt, rfl, rfl, lt_of_not_le h3,
              by simp only [if_neg h3], by simp only [if_neg h3]⟩

/-- Case analysis of the auto-bid route: invalid parameters leave the state
untouched; otherwise the directive is upserted (bids unchanged) and the
proxy-bidding loop runs. -/
theorem set_auto_bid_cases (u : Nat) (m i : Rat) (s : AuctionState) :
    set_auto_bid u m i s = s ∨
    ∃ s1 : AuctionState, set_auto_bid u m i s = _run_auto_bidding s1 ∧
      s1.bids = s.bids ∧ s.next_id ≤ s1.next_id ∧ s1.starting_price = s.starting_price ∧
      s1.alerts = s.alerts ∧ s1.auction_end = s.auction_end := by
  unfold set_auto_bid
  split
  · left; rfl
  · split
    · right
      exact ⟨_, rfl, rfl, le_refl _, rfl, rfl, rfl⟩
    · right
      exact ⟨_, rfl, rfl, Nat.le_succ _, rfl, rfl, rfl⟩

theorem Inv_transfer {s s1 : AuctionState} (hInv : Inv s) (hb : s1.bids = s.bids)
    (hn : s.next_id ≤ s1.next_id) : Inv s1 := by
  unfold Inv leadingCount
  rw [hb]
  exact ⟨hInv.1, hInv.2.1, fun b hbm => lt_of_lt_of_le (hInv.2.2.1 b hbm) hn, hInv.2.2.2⟩

theorem leading_mono_applyOp {op : EngineOp} {s : AuctionState} (hInv : Inv s)
    {b : Bid} (hb : b ∈ s.bids) (hbl : b.bid_status = .LEADING)
    {c : Bid} (hc : c ∈ (applyOp op s).bids) (hcl : c.bid_status = .LEADING) :
    b.bid_price ≤ c.bid_price := by
  cases op with
  | placeBid now u a =>
    replace hc : c ∈ (place_bid now u a s).2.bids := hc
    rcases place_bid_cases now u a s with ⟨_, heq⟩ | ⟨uid, amt, hu, ha, hamt, _, heq⟩
    · rw [heq] at hc
      exact le_of_eq (by rw [Inv_leading_unique hInv hb hbl hc hcl])
    · rw [heq, (refreshHighestCache_fields _).1] at hc
      have hInv1 : Inv (insertManualBid uid amt s) := Inv_insertManualBid hInv hamt
      have hnb : (⟨s.next_id, uid, amt, s.next_id, .LEADING⟩ : Bid) ∈
          (insertManualBid uid amt s).bids := by
        show (⟨s.next_id, uid, amt, s.next_id, .LEADING⟩ : Bid) ∈
          outbidAllBids s ++ [(⟨s.next_id, uid, amt, s.next_id, .LEADING⟩ : Bid)]
        exact List.mem_append_right _ (List.mem_singleton.mpr rfl)
      have hge : amt ≤ c.bid_price := runAuto_leading_ge hInv1 hnb rfl hc hcl
      exact le_trans (bid_price_le_minRequired hb) (le_trans (le_of_lt hamt) hge)
  | setAutoBid u m i =>
    replace hc : c ∈ (set_auto_bid u m i s).bids := hc
    rcases set_auto_bid_cases u m i s with heq | ⟨s1, heq, hbids, hnext, _, _, _⟩
    · rw [heq] at hc
      exact le_of_eq (by rw [Inv_leading_unique hInv hb hbl hc hcl])
    · rw [heq] at hc
      have hInv1 : Inv s1 := Inv_transfer hInv hbids hnext
      have hb1 : b ∈ s1.bids := by rw [hbids]; exact hb
      exact runAuto_leading_ge hInv1 hb1 hbl hc hcl
  | settle now =>
    replace hc : c ∈ (_process_ended_auctions now s).bids := hc
    unfold _process_ended_auctions at hc
    by_cases hg : s.auction_end < now ∧ hasLeading s.bids = true
    · rw [if_pos hg] at hc
      cases hhb : leadingHighest s.bids with
      | none =>
        rw [hhb] at hc
        exact le_of_eq (by rw [Inv_leading_unique hInv hb hbl hc hcl])
      | some hbid =>
        rw [hhb] at hc
        replace hc : c ∈ s.bids.map (settleBid hbid) := hc
        rcases List.mem_map.mp hc with ⟨d, hdmem, hfd⟩
        subst hfd
        exact absurd hcl (settleBid_not_leading hInv hhb hdmem)
    · rw [if_neg hg] at hc
      exact le_of_eq (by rw [Inv_leading_unique hInv hb hbl hc hcl])

/-! ### Claim theorems -/

/-- C1: for every sequence of engine operations (manual bid placement,
auto-bid resolution via directive upsert, settlement) on one auction
starting from a freshly created auction with no bids, at most one bid
holds LEADING status at any instant, and the LEADING bid's price is
non-decreasing across any further engine operation. -/
theorem C1_at_most_one_leading_and_monotone (init : AuctionState) (hinit : init.bids = [])
    (ops : List EngineOp) (op : EngineOp) :
    leadingCount (runOps ops init) ≤ 1 ∧
    (∀ b ∈ (runOps ops init).bids, b.bid_status = .LEADING →
      ∀ c ∈ (applyOp op (runOps ops init)).bids, c.bid_status = .LEADING →
        b.bid_price ≤ c.bid_price) := by
  have hInv := Inv_runOps (Inv_of_nil hinit) ops
  exact ⟨hInv.1, fun b hb hbl c hc hcl => leading_mono_applyOp hInv hb hbl hc hcl⟩

/-- Witness for C1 at a concrete auction and operation sequence. -/
theorem C1_witness :
    (initState 10 100 1 "t").bids = [] ∧
    (leadingCount (runOps [EngineOp.placeBid 50 (some 7) (some 20)] (initState 10 100 1 "t")) ≤ 1 ∧
      (∀ b ∈ (runOps [EngineOp.placeBid 50 (some 7) (some 20)] (initState 10 100 1 "t")).bids,
        b.bid_status = .LEADING →
        ∀ c ∈ (applyOp (EngineOp.placeBid 60 (some 8) (some 25))
            (runOps [EngineOp.placeBid 50 (some 7) (some 20)] (initState 10 100 1 "t"))).bids,
          c.bid_status = .LEADING → b.bid_price ≤ c.bid_price)) :=
  ⟨rfl, C1_at_most_one_leading_and_monotone (initState 10 100 1 "t") rfl
    [EngineOp.placeBid 50 (some 7) (some 20)] (EngineOp.placeBid 60 (some 8) (some 25))⟩

/-- C2: for a manual bid on an open auction by a logged-in non-seller
bidder with a well-formed amount, the bid is accepted iff its amount
strictly exceeds the minimum-acceptable bound, and rejected as too low
iff the amount is less than or equal to that bound (so a bid exactly
equal to the current leader is rejected); the bound is
max(starting price, current highest bid price). -/
theorem C2_accept_iff_exceeds_min (now : Nat) (uid : Nat) (a : Rat) (s : AuctionState)
    (hseller : uid ≠ s.seller_id) (hopen : ¬ s.auction_end < now) :
    minRequired s = max s.starting_price (currentPrice s) ∧
    ((place_bid now (some uid) (some a) s).1 = .accepted ↔ minRequired s < a) ∧
    ((place_bid now (some uid) (some a) s).1 = .tooLow (minRequired s) ↔ a ≤ minRequired s) := by
  refine ⟨?_, ?_, ?_⟩
  · unfold minRequired currentPrice
    cases _get_current_highest_bid s.bids with
    | none => exact (max_self _).symm
    | some pb => rfl
  · unfold place_bid
    simp only [if_neg hseller, if_neg hopen]
    by_cases h3 : a ≤ minRequired s
    · simp only [if_pos h3]
      constructor
      · intro hcon; exact absurd hcon (by simp)
      · intro hlt; exact absurd hlt (not_lt_of_le h3)
    · simp only [if_neg h3]
      exact ⟨fun _ => lt_of_not_le h3, fun _ => trivial⟩
  · unfold place_bid
    simp only [if_neg hseller, if_neg hopen]
    by_cases h3 : a ≤ minRequired s
    · simp only [if_pos h3]
      exact ⟨fun _ => h3, fun _ => trivial⟩
    · simp only [if_neg h3]
      constructor
      · intro hcon; exact absurd hcon (by simp)
      · intro hle; exact absurd hle h3

/-- Witness for C2 at a concrete open auction and non-seller bidder. -/
theorem C2_witness :
    (7 ≠ (initState 10 100 1 "t").seller_id) ∧
    (¬ (initState 10 100 1 "t").auction_end < 50) ∧
    (minRequired (initState 10 100 1 "t")
        = max (initState 10 100 1 "t").starting_price (currentPrice (initState 10 100 1 "t")) ∧
      ((place_bid 50 (some 7) (some 20) (initState 10 100 1 "t")).1 = .accepted ↔
        minRequired (initState 10 100 1 "t") < 20) ∧
      ((place_bid 50 (some 7) (some 20) (initState 10 100 1 "t")).1
          = .tooLow (minRequired (initState 10 100 1 "t")) ↔
        20 ≤ minRequired (initState 10 100 1 "t"))) :=
  ⟨by decide, by decide,
    C2_accept_iff_exceeds_min 50 7 20 (initState 10 100 1 "t") (by decide) (by decide)⟩

theorem runAutoFuel_alerts_append (fuel : Nat) :
    ∀ s : AuctionState, ∃ rest, (runAutoFuel fuel s).alerts = s.alerts ++ rest := by
  induction fuel with
  | zero => intro s; exact ⟨[], (List.append_nil _).symm⟩
  | succ n ih =>
    intro s
    show ∃ rest,
      (match autoStep s with | none => s | some t => runAutoFuel n t).alerts = s.alerts ++ rest
    cases ha : autoStep s with
    | none => exact ⟨[], (List.append_nil _).symm⟩
    | some t =>
      rcases ih t with ⟨r2, hr2⟩
      rcases autoStep_eq_some ha with ⟨np, ab, hc, hts⟩
      have halerts : t.alerts = outbidPrevAlerts s := by rw [hts]
      have hout : ∃ r1, outbidPrevAlerts s = s.alerts ++ r1 := by
        unfold outbidPrevAlerts
        cases _get_current_highest_bid s.bids with
        | none => exact ⟨[], (List.append_nil _).symm⟩
        | some pb => exact ⟨_, rfl⟩
      rcases hout with ⟨r1, hr1⟩
      exact ⟨r1 ++ r2, by rw [hr2, halerts, hr1, List.append_assoc]⟩

/-- C7 amended: on every accepted manual bid, the outbid alert emitted by
the acceptance step goes to the previous highest bidder iff a previous
highest bid existed, with no comparison of user ids: the alert stream
after the operation extends `s.alerts` first by exactly that conditional
alert (so a bidder who raises their own leading bid is alerted about
being outbid by themself), then by whatever the proxy-bidding run adds. -/
theorem C7_amended_alert_iff_prev_highest (now : Nat) (uid : Nat) (a : Rat) (s : AuctionState)
    (hacc : (place_bid now (some uid) (some a) s).1 = .accepted) :
    (∃ rest, (place_bid now (some uid) (some a) s).2.alerts = outbidPrevAlerts s ++ rest) ∧
    (∀ pb, _get_current_highest_bid s.bids = some pb →
      outbidPrevAlerts s = s.alerts ++ [⟨pb.user_id, .outbid s.auction_title⟩]) ∧
    (_get_current_highest_bid s.bids = none → outbidPrevAlerts s = s.alerts) := by
  refine ⟨?_, ?_, ?_⟩
  · rcases place_bid_cases now (some uid) (some a) s with ⟨hne, _⟩ | ⟨uid2, amt, hu, ha, _, _, heq⟩
    · exact absurd hacc hne
    · injection hu with hu
      injection ha with ha
      subst hu
      subst ha
      rw [heq]
      rw [(refreshHighestCache_fields _).2.2]
      rcases runAutoFuel_alerts_append (autoMeasure (insertManualBid uid a s))
          (insertManualBid uid a s) with ⟨rest, hrest⟩
      refine ⟨rest, ?_⟩
      show (runAutoFuel (autoMeasure (insertManualBid uid a s)) (insertManualBid uid a s)).alerts
        = outbidPrevAlerts s ++ rest
      rw [hrest]
      rfl
  · intro pb hpb
    unfold outbidPrevAlerts
    rw [hpb]
    rfl
  · intro hnone
    unfold outbidPrevAlerts
    rw [hnone]

/-- Concrete state for the C7 counterexample: user 7 already holds the
LEADING bid at 15 on an open auction sold by user 1. -/
def sC7 : AuctionState :=
  ⟨10, 100, 1, "t", [⟨0, 7, 15, 0, .LEADING⟩], [], [], none, 1⟩

/-- Witness for C7: a concrete accepted bid, where the acceptance-step
alert stream is exactly the conditional outbid alert. -/
theorem C7_witness :
    (place_bid 50 (some 8) (some 20) sC7).1 = .accepted ∧
    ((∃ rest, (place_bid 50 (some 8) (some 20) sC7).2.alerts = outbidPrevAlerts sC7 ++ rest) ∧
      (∀ pb, _get_current_highest_bid sC7.bids = some pb →
        outbidPrevAlerts sC7 = sC7.alerts ++ [⟨pb.user_id, .outbid sC7.auction_title⟩]) ∧
      (_get_current_highest_bid sC7.bids = none → outbidPrevAlerts sC7 = sC7.alerts)) :=
  ⟨by decide, C7_amended_alert_iff_prev_highest 50 8 20 sC7 (by decide)⟩

/-- C7 counterexample: the claim that a bidder who raises their own
leading bid receives no outbid alert is false — user 7 raises their own
LEADING bid from 15 to 20, the bid is accepted, and user 7 receives the
"you have been outbid" alert. -/
theorem C7_counterexample :
    7 ≠ sC7.seller_id ∧ ¬ sC7.auction_end < 50 ∧
    _get_current_highest_bid sC7.bids = some ⟨0, 7, 15, 0, .LEADING⟩ ∧
    (place_bid 50 (some 7) (some 20) sC7).1 = .accepted ∧
    (place_bid 50 (some 7) (some 20) sC7).2.alerts = [⟨7, .outbid "t"⟩] := by
  decide

/-- The two-directive scenario of the spec: starting price 10.00,
directive A (id 1, user 101, ceiling 30, step 5) and directive B (id 2,
user 102, ceiling 100, step 1), no bids yet. -/
def demoC8 : AuctionState :=
  ⟨10, 100, 0, "demo", [], [⟨1, 101, 30, 5, true⟩, ⟨2, 102, 100, 1, true⟩], [], none, 10⟩

/-- C8: one invocation of proxy resolution on the two-directive scenario
ends with directive B's user 102 holding the LEADING bid at 31.00, while
directive A's user 101 holds its last bid at 30.00 marked OUTBID; the
result is the loop's fixed point, so it is exactly what the source's
run-until-no-candidate loop persists. -/
theorem C8_two_directive_scenario :
    Option.map (fun b => (b.user_id, b.bid_price, b.bid_status))
      (_get_current_highest_bid (_run_auto_bidding demoC8).bids) = some (102, 31, .LEADING) ∧
    (((_run_auto_bidding demoC8).bids.filter fun b => b.user_id == 101).map
      fun b => (b.bid_price, b.bid_status)).getLast? = some (30, .OUTBID) ∧
    autoStep (_run_auto_bidding demoC8) = none :=
  ⟨by decide, by decide, run_auto_fixpoint demoC8⟩

/-- C6 counterexample: on the two-directive demo state the proxy loop
needs 8 iterations to reach its fixed point although only 2 directives
exist; after (number of directives) iterations the loop has not yet
terminated.  This refutes the claimed bound of (number of directives)
iterations. -/
theorem C6_counterexample :
    autoStepCount (autoMeasure demoC8) demoC8 = 8 ∧
    demoC8.auto_bids.length = 2 ∧
    autoStep (runAutoFuel (autoMeasure demoC8) demoC8) = none ∧
    autoStep (runAutoFuel demoC8.auto_bids.length demoC8) ≠ none ∧
    ¬ autoStepCount (autoMeasure demoC8) demoC8 ≤ demoC8.auto_bids.length :=
  ⟨by decide, by decide, run_auto_fixpoint demoC8, by decide, by decide⟩

/-- C6 amended: each iteration of the proxy resolution loop strictly
increases the leading price, and the loop terminates — it reaches its
fixed point within `autoMeasure` iterations (the total number of
increment-sized steps all directives can still make), though not in
general within (number of directives) iterations. -/
theorem C6_amended_strict_increase_and_termination :
    (∀ s s' : AuctionState, autoStep s = some s' → currentPrice s < currentPrice s') ∧
    (∀ s : AuctionState, autoStep (runAutoFuel (autoMeasure s) s) = none) := by
  constructor
  · intro s s' h
    rcases autoStep_price_lt h with ⟨np, ab, _, hlt, hcp, _, _⟩
    rw [hcp]
    exact hlt
  · intro s
    exact runAutoFuel_fixpoint le_rfl

/-- Witness for C6 amended at the demo state: the first loop iteration
strictly raises the price, and the loop reaches its fixed point. -/
theorem C6_witness :
    currentPrice demoC8 < currentPrice ((autoStep demoC8).getD demoC8) ∧
    autoStep (runAutoFuel (autoMeasure demoC8) demoC8) = none :=
  ⟨C6_amended_strict_increase_and_termination.1 demoC8 ((autoStep demoC8).getD demoC8) (by decide),
   C6_amended_strict_increase_and_termination.2 demoC8⟩

theorem runAutoFuel_auto_bids {fuel : Nat} :
    ∀ s : AuctionState, (runAutoFuel fuel s).auto_bids = s.auto_bids := by
  induction fuel with
  | zero => intro s; rfl
  | succ n ih =>
    intro s
    show (match autoStep s with | none => s | some t => runAutoFuel n t).auto_bids = s.auto_bids
    cases ha : autoStep s with
    | none => rfl
    | some t =>
      rcases autoStep_eq_some ha with ⟨np, ab, _, hts⟩
      rw [ih t, hts]

theorem run_auto_bidding_auto_bids (s : AuctionState) :
    (_run_auto_bidding s).auto_bids = s.auto_bids :=
  runAutoFuel_auto_bids s

/-- C9 amended: `set_auto_bid` performs no close-time or settlement check:
on any ledger state whatsoever — an ended or already settled auction
included — valid parameters are upserted as an active directive (and proxy
resolution runs immediately, able to insert a new bid on the settled
auction and demote its WON bid, as the counterexample shows). -/
theorem C9_amended_no_close_time_check (u : Nat) (m i : Rat) (s : AuctionState)
    (hm : 0 < m) (hi : 0 < i) :
    ∃ ab ∈ (set_auto_bid u m i s).auto_bids,
      ab.user_id = u ∧ ab.max_bid = m ∧ ab.increment = i ∧ ab.active = true := by
  have hvalid : ¬ (m ≤ 0 ∨ i ≤ 0) := by push_neg; exact ⟨hm, hi⟩
  unfold set_auto_bid
  rw [if_neg hvalid]
  rw [run_auto_bidding_auto_bids]
  split
  case isTrue hex =>
    rcases List.any_eq_true.mp hex with ⟨d, hd, hdu⟩
    have hdu2 : d.user_id = u := by simpa using hdu
    refine ⟨{ d with max_bid := m, increment := i, active := true }, ?_, hdu2, rfl, rfl, rfl⟩
    show _ ∈ (s.auto_bids.map fun ab =>
      if ab.user_id = u then { ab with max_bid := m, increment := i, active := true } else ab)
    have : (if d.user_id = u then { d with max_bid := m, increment := i, active := true }
        else d) = { d with max_bid := m, increment := i, active := true } := by rw [if_pos hdu2]
    rw [← this]
    exact List.mem_map_of_mem _ hd
  case isFalse hex =>
    refine ⟨⟨s.next_id, u, m, i, true⟩, ?_, rfl, rfl, rfl, rfl⟩
    show _ ∈ s.auto_bids ++ [(⟨s.next_id, u, m, i, true⟩ : AutoBid)]
    exact List.mem_append_right _ (List.mem_singleton.mpr rfl)

/-- A reachable settled state: user 7 bids 40 on the 10.00-start auction,
then settlement runs after the close time, leaving one WON bid. -/
def sC9 : AuctionState :=
  runOps [.placeBid 50 (some 7) (some 40), .settle 200] (initState 10 100 1 "t")

/-- C9 counterexample: on the settled state `sC9` (close time passed, one
WON bid), the engine still accepts a directive upsert — `set_auto_bid`
inserts a brand-new bid on the settled auction and the WON bid's status
is changed (demoted to OUTBID), refuting both halves of the claim. -/
theorem C9_counterexample :
    sC9.auction_end < 200 ∧
    (sC9.bids.countP fun b => b.bid_status == .WON) = 1 ∧
    (applyOp (.setAutoBid 8 50 5) sC9).auto_bids.length = 1 ∧
    ((applyOp (.setAutoBid 8 50 5) sC9).bids.countP fun b => b.bid_status == .WON) = 0 ∧
    (applyOp (.setAutoBid 8 50 5) sC9).bids.length = sC9.bids.length + 1 := by
  decide

/-- Witness for C9 amended, applied on the settled state itself. -/
theorem C9_witness :
    (0 : Rat) < 50 ∧ (0 : Rat) < 5 ∧
    ∃ ab ∈ (set_auto_bid 8 50 5 sC9).auto_bids,
      ab.user_id = 8 ∧ ab.max_bid = 50 ∧ ab.increment = 5 ∧ ab.active = true :=
  ⟨by decide, by decide, C9_amended_no_close_time_check 8 50 5 sC9 (by decide) (by decide)⟩

/-! ### Settlement lemmas -/

theorem hasLeading_eq_false {l : List Bid} :
    hasLeading l = false ↔ ∀ b ∈ l, b.bid_status ≠ .LEADING := by
  unfold hasLeading
  rw [List.any_eq_false]
  constructor
  · intro h b hb hl
    exact h b hb (by simp [hl])
  · intro h b hb hcon
    exact h b hb (by simpa using hcon)

theorem process_eq_of_leading {now : Nat} {s : AuctionState} (hend : s.auction_end < now)
    {hb : Bid} (hhb : leadingHighest s.bids = some hb) :
    _process_ended_auctions now s = { s with
      bids := s.bids.map (settleBid hb),
      alerts := s.alerts ++ [⟨hb.user_id, .won s.auction_title hb.bid_price⟩] } := by
  have hl : hasLeading s.bids = true := by
    rcases hl2 : hasLeading s.bids with _ | _
    · rw [leadingHighest_eq_none.mpr hl2] at hhb
      exact absurd hhb (by simp)
    · rfl
  unfold _process_ended_auctions
  rw [if_pos ⟨hend, hl⟩, hhb]

theorem process_skip_no_leading (now : Nat) {s : AuctionState}
    (h : hasLeading s.bids = false) : _process_ended_auctions now s = s := by
  unfold _process_ended_auctions
  rw [if_neg]
  intro hcon
  rw [h] at hcon
  exact absurd hcon.2 (by simp)

theorem settleBid_status_eq {s : AuctionState} (hInv : Inv s) {hb : Bid}
    (hhb : leadingHighest s.bids = some hb) {b : Bid} (hbmem : b ∈ s.bids) :
    settleBid hb b =
      (if b.bid_status = .LEADING then { b with bid_status := .WON }
       else if b.bid_status = .OUTBID ∨ b.bid_status = .PLACED then { b with bid_status := .LOST }
       else b) := by
  have hmemhb := (leadingHighest_mem hhb).1
  have hlead := (leadingHighest_mem hhb).2
  unfold settleBid
  by_cases hid : b.bid_id = hb.bid_id
  · have hbe : b = hb := List.inj_on_of_nodup_map hInv.2.2.2 hbmem hmemhb hid
    have hbl : b.bid_status = .LEADING := by rw [hbe]; exact hlead
    rw [if_pos hid, if_pos hbl]
  · have hnl : ¬ b.bid_status = .LEADING := fun hl =>
      hid (by rw [Inv_leading_unique hInv hbmem hl hmemhb hlead])
    rw [if_neg hid, if_neg hnl]

/-- C4 amended: for an auction whose close time is strictly earlier than
now (the source guard `datetime(auction_end) < datetime('now')`; at close
time exactly equal to now the auction is skipped — see the
counterexample) and which still has a LEADING bid, one settlement pass
turns exactly the LEADING bid into WON,
turns every other bid currently in OUTBID or PLACED into LOST (leaving
remaining statuses untouched), and appends exactly one alert to the
winner carrying the winning price; an auction with zero bids is left
entirely untouched, producing no alerts. -/
theorem C4_settlement_pass (now : Nat) (s : AuctionState) (hInv : Inv s)
    (hend : s.auction_end < now) :
    (∀ hb, leadingHighest s.bids = some hb →
      (_process_ended_auctions now s).bids
          = s.bids.map (fun b =>
              if b.bid_status = .LEADING then { b with bid_status := .WON }
              else if b.bid_status = .OUTBID ∨ b.bid_status = .PLACED then
                { b with bid_status := .LOST }
              else b) ∧
        hb.bid_status = .LEADING ∧
        (_process_ended_auctions now s).alerts
          = s.alerts ++ [⟨hb.user_id, .won s.auction_title hb.bid_price⟩]) ∧
    (∀ t : AuctionState, t.bids = [] → _process_ended_auctions now t = t) := by
  constructor
  · intro hb hhb
    rw [process_eq_of_leading hend hhb]
    refine ⟨?_, (leadingHighest_mem hhb).2, rfl⟩
    show s.bids.map (settleBid hb) = _
    exact List.map_congr_left fun b hbmem => settleBid_status_eq hInv hhb hbmem
  · intro t ht
    apply process_skip_no_leading now
    rw [hasLeading_eq_false, ht]
    simp

/-- Witness for C4 on a concrete ended auction holding one LEADING bid. -/
theorem C4_witness :
    Inv (runOps [EngineOp.placeBid 50 (some 7) (some 40)] (initState 10 100 1 "t")) ∧
    (runOps [EngineOp.placeBid 50 (some 7) (some 40)] (initState 10 100 1 "t")).auction_end < 200 ∧
    ((∀ hb, leadingHighest (runOps [EngineOp.placeBid 50 (some 7) (some 40)]
          (initState 10 100 1 "t")).bids = some hb →
      (_process_ended_auctions 200 (runOps [EngineOp.placeBid 50 (some 7) (some 40)]
          (initState 10 100 1 "t"))).bids
          = (runOps [EngineOp.placeBid 50 (some 7) (some 40)]
              (initState 10 100 1 "t")).bids.map (fun b =>
              if b.bid_status = .LEADING then { b with bid_status := .WON }
              else if b.bid_status = .OUTBID ∨ b.bid_status = .PLACED then
                { b with bid_status := .LOST }
              else b) ∧
        hb.bid_status = .LEADING ∧
        (_process_ended_auctions 200 (runOps [EngineOp.placeBid 50 (some 7) (some 40)]
            (initState 10 100 1 "t"))).alerts
          = (runOps [EngineOp.placeBid 50 (some 7) (some 40)]
              (initState 10 100 1 "t")).alerts
            ++ [⟨hb.user_id, .won (runOps [EngineOp.placeBid 50 (some 7) (some 40)]
                (initState 10 100 1 "t")).auction_title hb.bid_price⟩]) ∧
    (∀ t : AuctionState, t.bids = [] → _process_ended_auctions 200 t = t)) :=
  ⟨by decide, by decide,
    C4_settlement_pass 200 (runOps [EngineOp.placeBid 50 (some 7) (some 40)]
      (initState 10 100 1 "t")) (by decide) (by decide)⟩

/-- Whether an alert is a settlement "you won" alert. -/
def isWinAlert (a : Alert) : Bool :=
  match a.kind with
  | .won _ _ => true
  | _ => false

/-- C4 counterexample: the claim quantifies over auctions whose close
time is ≤ now, but the settlement guard in the source is the strict
`datetime(a.auction_end) < datetime('now')`.  At the boundary — close
time exactly equal to now — an auction holding a LEADING bid is skipped
entirely: one settlement pass leaves the state unchanged, promotes no
bid to WON and creates no winner alert, refuting the claim at that
concrete input. -/
theorem C4_counterexample :
    (runOps [EngineOp.placeBid 50 (some 7) (some 40)] (initState 10 100 1 "t")).auction_end
      ≤ 100 ∧
    hasLeading (runOps [EngineOp.placeBid 50 (some 7) (some 40)]
      (initState 10 100 1 "t")).bids = true ∧
    _process_ended_auctions 100
        (runOps [EngineOp.placeBid 50 (some 7) (some 40)] (initState 10 100 1 "t"))
      = runOps [EngineOp.placeBid 50 (some 7) (some 40)] (initState 10 100 1 "t") ∧
    ((_process_ended_auctions 100
        (runOps [EngineOp.placeBid 50 (some 7) (some 40)]
          (initState 10 100 1 "t"))).bids.countP fun b => b.bid_status == .WON) = 0 ∧
    (_process_ended_auctions 100
        (runOps [EngineOp.placeBid 50 (some 7) (some 40)]
          (initState 10 100 1 "t"))).alerts.countP isWinAlert = 0 := by
  decide

theorem countP_bid_id_eq_one {l : List Bid} (hn : (l.map Bid.bid_id).Nodup) {hb : Bid}
    (hm : hb ∈ l) : (l.countP fun b => b.bid_id == hb.bid_id) = 1 := by
  induction l with
  | nil => simp at hm
  | cons a t ih =>
    rw [List.map_cons, List.nodup_cons] at hn
    rw [List.countP_cons]
    rcases List.mem_cons.mp hm with hm1 | hm1
    · have hpa : (a.bid_id == hb.bid_id) = true := by rw [hm1]; simp
      have h0 : (t.countP fun b => b.bid_id == hb.bid_id) = 0 := by
        rw [List.countP_eq_zero]
        intro b hbm hcon
        apply hn.1
        have hide : a.bid_id = b.bid_id := by
          rw [hm1] at hcon
          exact (by simpa using hcon : b.bid_id = a.bid_id).symm
        rw [hide]
        exact List.mem_map_of_mem _ hbm
      rw [hpa, h0]
      simp
    · have hpa : (a.bid_id == hb.bid_id) = false := by
        simp only [beq_eq_false_iff_ne, ne_eq]
        intro hcon
        exact hn.1 (hcon ▸ List.mem_map_of_mem _ hm1)
      rw [hpa, ih hn.2 hm1]
      simp

/-- C3: settlement is idempotent.  From a pre-settlement state (close time
passed, a LEADING bid present, no WON bid and no winner alert yet),
running settlement twice yields exactly one WON bid and exactly one
winner alert — never two — and the second run changes nothing, because
the auction no longer has a LEADING bid. -/
theorem C3_settlement_idempotent (now : Nat) (s : AuctionState) (hInv : Inv s)
    (hend : s.auction_end < now) (hlead : hasLeading s.bids = true)
    (hwon : (s.bids.countP fun b => b.bid_status == .WON) = 0)
    (halert : s.alerts.countP isWinAlert = 0) :
    ((_process_ended_auctions now (_process_ended_auctions now s)).bids.countP
        fun b => b.bid_status == .WON) = 1 ∧
    (_process_ended_auctions now (_process_ended_auctions now s)).alerts.countP isWinAlert = 1 ∧
    _process_ended_auctions now (_process_ended_auctions now s)
      = _process_ended_auctions now s ∧
    (∀ t : AuctionState, hasLeading t.bids = false → _process_ended_auctions now t = t) := by
  have hne : leadingHighest s.bids ≠ none := by
    intro hcon
    rw [leadingHighest_eq_none, hlead] at hcon
    exact absurd hcon (by simp)
  rcases hhb : leadingHighest s.bids with _ | hb
  · exact absurd hhb hne
  have heq := process_eq_of_leading hend hhb
  have hnowon : ∀ b ∈ s.bids, b.bid_status ≠ .WON := by
    rw [List.countP_eq_zero] at hwon
    intro b hb2 hcon
    exact absurd (by simpa using hcon) (hwon b hb2)
  have hcount1 : ((_process_ended_auctions now s).bids.countP
      fun b => b.bid_status == .WON) = 1 := by
    rw [heq]
    show ((s.bids.map (settleBid hb)).countP fun b => b.bid_status == .WON) = 1
    rw [List.countP_map]
    have hcongr : ∀ b ∈ s.bids,
        (((fun b => b.bid_status == BidStatus.WON) ∘ settleBid hb) b = true ↔
          (fun b => b.bid_id == hb.bid_id) b = true) := by
      intro b hbmem
      show ((settleBid hb b).bid_status == BidStatus.WON) = true ↔ _
      unfold settleBid
      by_cases hid : b.bid_id = hb.bid_id
      · simp [hid]
      · rw [if_neg hid]
        by_cases h2 : b.bid_status = .OUTBID ∨ b.bid_status = .PLACED
        · simp [hid, h2]
        · rw [if_neg h2]
          simp only [beq_iff_eq]
          constructor
          · intro hcon; exact absurd hcon (hnowon b hbmem)
          · intro hcon; exact absurd hcon hid
    rw [List.countP_congr hcongr]
    exact countP_bid_id_eq_one hInv.2.2.2 (leadingHighest_mem hhb).1
  have halert1 : (_process_ended_auctions now s).alerts.countP isWinAlert = 1 := by
    rw [heq]
    show (s.alerts
      ++ [(⟨hb.user_id, .won s.auction_title hb.bid_price⟩ : Alert)]).countP isWinAlert = 1
    rw [List.countP_append, halert]
    rfl
  have hnl1 : hasLeading (_process_ended_auctions now s).bids = false := by
    rw [hasLeading_eq_false]
    intro b hbm
    rw [heq] at hbm
    replace hbm : b ∈ s.bids.map (settleBid hb) := hbm
    rcases List.mem_map.mp hbm with ⟨c, hcm, hfc⟩
    subst hfc
    exact settleBid_not_leading hInv hhb hcm
  have hskip := process_skip_no_leading now hnl1
  refine ⟨?_, ?_, hskip, fun t ht => process_skip_no_leading now ht⟩
  · rw [hskip]; exact hcount1
  · rw [hskip]; exact halert1

/-- Witness for C3 on a concrete ended auction with one LEADING bid. -/
theorem C3_witness :
    Inv (runOps [EngineOp.placeBid 50 (some 7) (some 40)] (initState 10 100 1 "t")) ∧
    (runOps [EngineOp.placeBid 50 (some 7) (some 40)] (initState 10 100 1 "t")).auction_end < 200 ∧
    hasLeading (runOps [EngineOp.placeBid 50 (some 7) (some 40)]
      (initState 10 100 1 "t")).bids = true ∧
    ((_process_ended_auctions 200 (_process_ended_auctions 200
        (runOps [EngineOp.placeBid 50 (some 7) (some 40)] (initState 10 100 1 "t")))).bids.countP
        fun b => b.bid_status == .WON) = 1 ∧
    (_process_ended_auctions 200 (_process_ended_auctions 200
        (runOps [EngineOp.placeBid 50 (some 7) (some 40)]
          (initState 10 100 1 "t")))).alerts.countP isWinAlert = 1 ∧
    _process_ended_auctions 200 (_process_ended_auctions 200
        (runOps [EngineOp.placeBid 50 (some 7) (some 40)] (initState 10 100 1 "t")))
      = _process_ended_auctions 200
          (runOps [EngineOp.placeBid 50 (some 7) (some 40)] (initState 10 100 1 "t")) ∧
    (∀ t : AuctionState, hasLeading t.bids = false → _process_ended_auctions 200 t = t) := by
  have h := C3_settlement_idempotent 200
    (runOps [EngineOp.placeBid 50 (some 7) (some 40)] (initState 10 100 1 "t"))
    (by decide) (by decide) (by decide) (by decide) (by decide)
  exact ⟨by decide, by decide, by decide, h.1, h.2.1, h.2.2.1, h.2.2.2⟩

/-! ### Ceiling bound for proxy bids (C5) -/

theorem runAutoFuel_old_bids {fuel : Nat} :
    ∀ (s : AuctionState), ∀ b ∈ (runAutoFuel fuel s).bids, b.bid_id < s.next_id →
      ∃ c ∈ s.bids, c.bid_id = b.bid_id ∧ c.bid_price = b.bid_price ∧
        c.user_id = b.user_id := by
  induction fuel with
  | zero => intro s b hb _; exact ⟨b, hb, rfl, rfl, rfl⟩
  | succ n ih =>
    intro s b
    show b ∈ (match autoStep s with | none => s | some t => runAutoFuel n t).bids →
      b.bid_id < s.next_id → _
    cases ha : autoStep s with
    | none => intro hb _; exact ⟨b, hb, rfl, rfl, rfl⟩
    | some t =>
      intro hb hlt
      rcases autoStep_eq_some ha with ⟨np, ab, hc, hts⟩
      have hlt2 : b.bid_id < t.next_id := by
        rw [hts]
        show b.bid_id < s.next_id + 1
        omega
      rcases ih t b hb hlt2 with ⟨c, hcm, hcid, hcp, hcu⟩
      rw [hts] at hcm
      replace hcm : c ∈ outbidPrevBids s
          ++ [(⟨s.next_id, ab.user_id, np, s.next_id, .LEADING⟩ : Bid)] := hcm
      rcases List.mem_append.mp hcm with hc1 | hc1
      · rcases mem_outbidPrevBids hc1 with ⟨d, hdm, hdid, hdp, hdu, _⟩
        exact ⟨d, hdm, hdid.symm.trans hcid, hdp.symm.trans hcp, hdu.symm.trans hcu⟩
      · have hce : c = ⟨s.next_id, ab.user_id, np, s.next_id, .LEADING⟩ := by simpa using hc1
        have : b.bid_id = s.next_id := by rw [← hcid, hce]
        omega

theorem autoBid_user_inj {l : List AutoBid} (hn : (l.map AutoBid.user_id).Nodup)
    {a b : AutoBid} (ha : a ∈ l) (hb : b ∈ l) (h : a.user_id = b.user_id) : a = b :=
  List.inj_on_of_nodup_map hn ha hb h

theorem runAuto_new_bids_bounded {fuel : Nat} :
    ∀ {s : AuctionState}, (∀ b ∈ s.bids, b.bid_id < s.next_id) →
      (s.auto_bids.map AutoBid.user_id).Nodup →
      ∀ b ∈ (runAutoFuel fuel s).bids, s.next_id ≤ b.bid_id →
        ∀ ab ∈ s.auto_bids, ab.user_id = b.user_id → b.bid_price ≤ ab.max_bid := by
  induction fuel with
  | zero =>
    intro s hid hu b hb hge ab hab hus
    exact absurd (hid b hb) (not_lt_of_le hge)
  | succ n ih =>
    intro s hid hu b
    show b ∈ (match autoStep s with | none => s | some t => runAutoFuel n t).bids →
      s.next_id ≤ b.bid_id → _
    cases ha : autoStep s with
    | none =>
      intro hb hge ab hab hus
      exact absurd (hid b hb) (not_lt_of_le hge)
    | some t =>
      intro hb hge ab hab hus
      rcases autoStep_eq_some ha with ⟨np, ab2, hc, hts⟩
      have hcand := mem_autoCandidates (chooseBest_mem hc)
      have hidt : ∀ x ∈ t.bids, x.bid_id < t.next_id := by
        intro x hx
        rw [hts] at hx
        replace hx : x ∈ outbidPrevBids s
            ++ [(⟨s.next_id, ab2.user_id, np, s.next_id, .LEADING⟩ : Bid)] := hx
        rw [hts]
        show x.bid_id < s.next_id + 1
        rcases List.mem_append.mp hx with hx1 | hx1
        · rcases mem_outbidPrevBids hx1 with ⟨c, hcm, hcid, _⟩
          rw [hcid]
          exact Nat.lt_succ_of_lt (hid c hcm)
        · rw [show x = (⟨s.next_id, ab2.user_id, np, s.next_id, .LEADING⟩ : Bid) by
            simpa using hx1]
          exact Nat.lt_succ_self _
      have hut : (t.auto_bids.map AutoBid.user_id).Nodup := by rw [hts]; exact hu
      by_cases hcase : t.next_id ≤ b.bid_id
      · refine ih hidt hut b hb hcase ab ?_ hus
        rw [hts]
        exact hab
      · have hbid : b.bid_id = s.next_id := by
          have h2 : b.bid_id < t.next_id := lt_of_not_le hcase
          rw [hts] at h2
          have h3 : b.bid_id < s.next_id + 1 := h2
          omega
        rcases runAutoFuel_old_bids t b hb (lt_of_not_le hcase) with ⟨c, hcm, hcid, hcp, hcu⟩
        rw [hts] at hcm
        replace hcm : c ∈ outbidPrevBids s
            ++ [(⟨s.next_id, ab2.user_id, np, s.next_id, .LEADING⟩ : Bid)] := hcm
        rcases List.mem_append.mp hcm with hc1 | hc1
        · rcases mem_outbidPrevBids hc1 with ⟨d, hdm, hdid, _⟩
          have : c.bid_id < s.next_id := by rw [hdid]; exact hid d hdm
          rw [hcid, hbid] at this
          exact absurd this (lt_irrefl _)
        · have hce : c = ⟨s.next_id, ab2.user_id, np, s.next_id, .LEADING⟩ := by simpa using hc1
          have hbp : b.bid_price = np := by rw [← hcp, hce]
          have hbu : b.user_id = ab2.user_id := by rw [← hcu, hce]
          have habe : ab = ab2 := autoBid_user_inj hu hab hcand.1 (by rw [hus, hbu])
          rw [hbp, habe, hcand.2.2.2.2.1]
          exact min_le_left _ _

/-- C5: proxy resolution never bids above a directive's ceiling.  First:
over any number of loop iterations, every bid inserted by the run (bid id
at or above the rowid counter at entry) on behalf of a user's directive
has price at most that directive's ceiling.  Second: each single iteration
inserts a bid whose price is exactly min(ceiling, current price + step)
for the chosen active directive, hence at most its ceiling. -/
theorem C5_ceiling_never_exceeded (s : AuctionState) (fuel : Nat)
    (hid : ∀ b ∈ s.bids, b.bid_id < s.next_id)
    (hu : (s.auto_bids.map AutoBid.user_id).Nodup) :
    (∀ b ∈ (runAutoFuel fuel s).bids, s.next_id ≤ b.bid_id →
      ∀ ab ∈ s.auto_bids, ab.user_id = b.user_id → b.bid_price ≤ ab.max_bid) ∧
    (∀ s' : AuctionState, autoStep s = some s' →
      ∃ b ab, s'.bids.getLast? = some b ∧ ab ∈ s.auto_bids ∧ ab.active = true ∧
        b.user_id = ab.user_id ∧
        b.bid_price = min ab.max_bid (currentPrice s + ab.increment) ∧
        b.bid_price ≤ ab.max_bid) := by
  constructor
  · exact runAuto_new_bids_bounded hid hu
  · intro s' ha
    rcases autoStep_eq_some ha with ⟨np, ab, hc, hts⟩
    have hcand := mem_autoCandidates (chooseBest_mem hc)
    refine ⟨⟨s.next_id, ab.user_id, np, s.next_id, .LEADING⟩, ab, ?_, hcand.1, hcand.2.1,
      rfl, hcand.2.2.2.2.1, by rw [hcand.2.2.2.2.1]; exact min_le_left _ _⟩
    rw [hts]
    show (outbidPrevBids s
        ++ [(⟨s.next_id, ab.user_id, np, s.next_id, .LEADING⟩ : Bid)]).getLast? = _
    exact List.getLast?_concat _

/-- Witness for C5 on the two-directive demo state. -/
theorem C5_witness :
    (∀ b ∈ demoC8.bids, b.bid_id < demoC8.next_id) ∧
    (demoC8.auto_bids.map AutoBid.user_id).Nodup ∧
    ((∀ b ∈ (runAutoFuel (autoMeasure demoC8) demoC8).bids, demoC8.next_id ≤ b.bid_id →
        ∀ ab ∈ demoC8.auto_bids, ab.user_id = b.user_id → b.bid_price ≤ ab.max_bid) ∧
      (∀ s' : AuctionState, autoStep demoC8 = some s' →
        ∃ b ab, s'.bids.getLast? = some b ∧ ab ∈ demoC8.auto_bids ∧ ab.active = true ∧
          b.user_id = ab.user_id ∧
          b.bid_price = min ab.max_bid (currentPrice demoC8 + ab.increment) ∧
          b.bid_price ≤ ab.max_bid)) :=
  ⟨by decide, by decide,
    C5_ceiling_never_exceeded demoC8 (autoMeasure demoC8) (by decide) (by decide)⟩

/-! ### Engine-created bids are always LEADING (C10) -/

theorem outbidAllBids_no_placed {s : AuctionState}
    (h : ∀ b ∈ s.bids, b.bid_status ≠ .PLACED) :
    ∀ x ∈ outbidAllBids s, x.bid_status ≠ .PLACED := by
  intro x hx
  unfold outbidAllBids at hx
  rcases List.mem_map.mp hx with ⟨c, hcm, hfc⟩
  subst hfc
  by_cases hcase : c.bid_status = .PLACED ∨ c.bid_status = .LEADING
  · simp [hcase]
  · simp only [if_neg hcase]
    exact h c hcm

theorem outbidPrevBids_no_placed {s : AuctionState}
    (h : ∀ b ∈ s.bids, b.bid_status ≠ .PLACED) :
    ∀ x ∈ outbidPrevBids s, x.bid_status ≠ .PLACED := by
  intro x hx
  unfold outbidPrevBids at hx
  cases hh : _get_current_highest_bid s.bids with
  | none => rw [hh] at hx; exact h x hx
  | some pb =>
    rw [hh] at hx
    rcases mem_markOutbid hx with ⟨c, hcm, hfc⟩
    subst hfc
    by_cases hcid : c.bid_id = pb.bid_id
    · simp [hcid]
    · simp only [if_neg hcid]
      exact h c hcm

theorem runAutoFuel_no_placed {fuel : Nat} :
    ∀ {s : AuctionState}, (∀ b ∈ s.bids, b.bid_status ≠ .PLACED) →
      ∀ b ∈ (runAutoFuel fuel s).bids, b.bid_status ≠ .PLACED := by
  induction fuel with
  | zero => intro s h b hb; exact h b hb
  | succ n ih =>
    intro s h b
    show b ∈ (match autoStep s with | none => s | some t => runAutoFuel n t).bids → _
    cases ha : autoStep s with
    | none => intro hb; exact h b hb
    | some t =>
      intro hb
      refine ih ?_ b hb
      intro x hx
      rcases autoStep_eq_some ha with ⟨np, ab, _, hts⟩
      rw [hts] at hx
      replace hx : x ∈ outbidPrevBids s
          ++ [(⟨s.next_id, ab.user_id, np, s.next_id, .LEADING⟩ : Bid)] := hx
      rcases List.mem_append.mp hx with hx1 | hx1
      · exact outbidPrevBids_no_placed h x hx1
      · rw [show x = (⟨s.next_id, ab.user_id, np, s.next_id, .LEADING⟩ : Bid) by simpa using hx1]
        simp

/-- C10: every bid row the engine inserts is inserted with status
LEADING — both the manual-bid insertion and the proxy-loop insertion —
and no engine operation ever creates a PLACED bid: a state without
PLACED bids never acquires one under any engine operation. -/
theorem C10_engine_inserts_only_leading :
    (∀ (uid : Nat) (amount : Rat) (s : AuctionState),
      (∀ b ∈ s.bids, b.bid_id < s.next_id) →
      ∀ b ∈ (insertManualBid uid amount s).bids, s.next_id ≤ b.bid_id →
        b.bid_status = .LEADING) ∧
    (∀ s s' : AuctionState, autoStep s = some s' →
      (∀ b ∈ s.bids, b.bid_id < s.next_id) →
      ∀ b ∈ s'.bids, s.next_id ≤ b.bid_id → b.bid_status = .LEADING) ∧
    (∀ (op : EngineOp) (s : AuctionState),
      (∀ b ∈ s.bids, b.bid_status ≠ .PLACED) →
      ∀ b ∈ (applyOp op s).bids, b.bid_status ≠ .PLACED) := by
  refine ⟨?_, ?_, ?_⟩
  · intro uid amount s hid b hb hge
    replace hb : b ∈ outbidAllBids s ++ [(⟨s.next_id, uid, amount, s.next_id, .LEADING⟩ : Bid)] :=
      hb
    rcases List.mem_append.mp hb with hb1 | hb1
    · rcases mem_outbidAllBids hb1 with ⟨c, hcm, hcid, _⟩
      have : b.bid_id < s.next_id := by rw [hcid]; exact hid c hcm
      exact absurd this (not_lt_of_le hge)
    · rw [show b = (⟨s.next_id, uid, amount, s.next_id, .LEADING⟩ : Bid) by simpa using hb1]
  · intro s s' ha hid b hb hge
    rcases autoStep_eq_some ha with ⟨np, ab, _, hts⟩
    rw [hts] at hb
    replace hb : b ∈ outbidPrevBids s
        ++ [(⟨s.next_id, ab.user_id, np, s.next_id, .LEADING⟩ : Bid)] := hb
    rcases List.mem_append.mp hb with hb1 | hb1
    · rcases mem_outbidPrevBids hb1 with ⟨c, hcm, hcid, _⟩
      have : b.bid_id < s.next_id := by rw [hcid]; exact hid c hcm
      exact absurd this (not_lt_of_le hge)
    · rw [show b = (⟨s.next_id, ab.user_id, np, s.next_id, .LEADING⟩ : Bid) by simpa using hb1]
  · intro op s h b hb
    cases op with
    | placeBid now u a =>
      replace hb : b ∈ (place_bid now u a s).2.bids := hb
      rcases place_bid_cases now u a s with ⟨_, heq⟩ | ⟨uid, amt, _, _, _, _, heq⟩
      · rw [heq] at hb; exact h b hb
      · rw [heq, (refreshHighestCache_fields _).1] at hb
        refine runAutoFuel_no_placed ?_ b hb
        intro x hx
        replace hx : x ∈ outbidAllBids s
            ++ [(⟨s.next_id, uid, amt, s.next_id, .LEADING⟩ : Bid)] := hx
        rcases List.mem_append.mp hx with hx1 | hx1
        · exact outbidAllBids_no_placed h x hx1
        · rw [show x = (⟨s.next_id, uid, amt, s.next_id, .LEADING⟩ : Bid) by simpa using hx1]
          simp
    | setAutoBid u m i =>
      replace hb : b ∈ (set_auto_bid u m i s).bids := hb
      rcases set_auto_bid_cases u m i s with heq | ⟨s1, heq, hbids, _, _, _, _⟩
      · rw [heq] at hb; exact h b hb
      · rw [heq] at hb
        refine runAutoFuel_no_placed ?_ b hb
        rw [hbids]
        exact h
    | settle now =>
      replace hb : b ∈ (_process_ended_auctions now s).bids := hb
      unfold _process_ended_auctions at hb
      by_cases hg : s.auction_end < now ∧ hasLeading s.bids = true
      · rw [if_pos hg] at hb
        cases hhb : leadingHighest s.bids with
        | none => rw [hhb] at hb; exact h b hb
        | some hbid =>
          rw [hhb] at hb
          replace hb : b ∈ s.bids.map (settleBid hbid) := hb
          rcases List.mem_map.mp hb with ⟨c, hcm, hfc⟩
          subst hfc
          unfold settleBid
          by_cases h1 : c.bid_id = hbid.bid_id
          · simp [h1]
          · rw [if_neg h1]
            by_cases h2 : c.bid_status = .OUTBID ∨ c.bid_status = .PLACED
            · simp [h2]
            · rw [if_neg h2]
              exact h c hcm
      · rw [if_neg hg] at hb
        exact h b hb

/-- Witness for C10 at concrete states and operations. -/
theorem C10_witness :
    (∀ b ∈ sC7.bids, b.bid_id < sC7.next_id) ∧
    (∀ b ∈ (insertManualBid 8 20 sC7).bids, sC7.next_id ≤ b.bid_id → b.bid_status = .LEADING) ∧
    (∀ b ∈ sC7.bids, b.bid_status ≠ .PLACED) ∧
    (∀ b ∈ (applyOp (EngineOp.placeBid 50 (some 8) (some 20)) sC7).bids,
      b.bid_status ≠ .PLACED) :=
  ⟨by decide, C10_engine_inserts_only_leading.1 8 20 sC7 (by decide), by decide,
    C10_engine_inserts_only_leading.2.2 (EngineOp.placeBid 50 (some 8) (some 20)) sC7 (by decide)⟩

end BuyMe
